import Mathlib

/-!
Verification development for the finite-difference Jacobian core of the
repository (package `fd`, function `Jacobian` with its serial and concurrent
evaluators), shallowly embedded over exact rational arithmetic.

Modelling conventions:
* `float64` values are modelled as `ℚ` (exact arithmetic; the spec's
  floating-point tolerances collapse to exact equality).
* A Go slice of floats is a `List ℚ`; a nil-able slice is an `Option (List ℚ)`.
* `mat64.Dense` is modelled by its column list together with its row count,
  supporting exactly the operations the code uses: `Dims`, `Set`, `SetCol`,
  `Scale`, and column read-modify (`ColView` + `AddScaledVec`).
* The caller-supplied function `f(y, x)` writes its output into a fresh
  buffer, so it is modelled as a pure function `List ℚ → List ℚ`.
* Go `panic` is modelled as an `Except.error` carrying the panic message.
  `Jacobian` returns the pair of the outcome (`.ok` with the final
  destination matrix, or `.error msg` meaning the panic fired and the
  caller's matrix was left untouched) and the trace of all inputs `f` was
  evaluated at, in evaluation order for the serial path (for the concurrent
  path the trace order is one admissible schedule; trace membership and
  multiplicity are schedule-independent).
* The host parallelism `runtime.GOMAXPROCS(0)` is an injected integer
  argument `gomaxprocs`.
-/

namespace Fd

/-- Model of `floats.AddScaled(dst, alpha, s)`: `dst[i] += alpha * s[i]`. -/
def AddScaled (dstv : List ℚ) (alpha : ℚ) (s : List ℚ) : List ℚ :=
  List.zipWith (fun a b => a + alpha * b) dstv s

/-- Model of `copy(xcopy, x); xcopy[j] += delta`: the vector `x` with entry
`j` perturbed by `delta` (all in a fresh buffer). -/
def perturb (x : List ℚ) (j : ℕ) (delta : ℚ) : List ℚ :=
  x.set j (x.getD j 0 + delta)

/-- A stencil evaluation point (`fd.Point`): location (offset multiplier on
the step) and coefficient (weight). -/
structure Point where
  Loc : ℚ
  Coeff : ℚ
  deriving DecidableEq, Repr

/-- A finite-difference formula (`fd.Formula`): a nil-able stencil slice, a
derivative order, and a default step. -/
structure Formula where
  Stencil : Option (List Point)
  Derivative : ℤ
  Step : ℚ
  deriving DecidableEq, Repr

/-- Ranging over the `Stencil` slice: a nil slice ranges over nothing. -/
def Formula.stencilList (f : Formula) : List Point :=
  f.Stencil.getD []

/-- Modelled from the spec: the formula falls back to the built-in default
when it is unset, i.e. when it is the zero value of the `Formula` struct
(nil stencil, zero derivative order, zero step). The method `isZero` itself
is not part of the sources provided, only its caller is. -/
def Formula.isZero (f : Formula) : Bool :=
  f.Stencil.isNone && f.Derivative == 0 && f.Step == 0

/-- Modelled from the spec: the built-in first-order "Forward" formula, whose
stencil has the origin point with weight -1 and an offset-1 point with
weight +1, and a small positive default step (the spec fixes the stencil
shape but not the numeric default step; any fixed non-zero value fits). -/
def Forward : Formula :=
  ⟨some [⟨0, -1⟩, ⟨1, 1⟩], 1, Rat.divInt 2 100000000⟩

/-- `fd.JacobianSettings`. -/
structure JacobianSettings where
  Formula : Formula
  OriginValue : Option (List ℚ)
  Step : ℚ
  Concurrent : Bool
  deriving DecidableEq, Repr

/-- The zero value `JacobianSettings{}` substituted for a nil settings
pointer. -/
def JacobianSettings.zero : JacobianSettings :=
  ⟨⟨none, 0, 0⟩, none, 0, false⟩

/-- Model of `mat64.Dense`, restricted to the shape and operations the code
uses: a row count `m` and the list of columns. -/
structure Dense where
  m : ℕ
  data : List (List ℚ)
  deriving DecidableEq, Repr

/-- `Dims()` returns (rows, columns). -/
def Dense.dims (d : Dense) : ℕ × ℕ :=
  (d.m, d.data.length)

/-- Read entry (i, j) (row i of column j). -/
def Dense.get (d : Dense) (i j : ℕ) : ℚ :=
  (d.data.getD j []).getD i 0

/-- `Set(i, j, v)`. -/
def Dense.set (d : Dense) (i j : ℕ) (v : ℚ) : Dense :=
  ⟨d.m, d.data.set j ((d.data.getD j []).set i v)⟩

/-- `SetCol(j, col)`. -/
def Dense.setCol (d : Dense) (j : ℕ) (col : List ℚ) : Dense :=
  ⟨d.m, d.data.set j col⟩

/-- `col := dst.ColView(j); col.AddScaledVec(col, c, y)`. -/
def Dense.colAddScaled (d : Dense) (j : ℕ) (c : ℚ) (y : List ℚ) : Dense :=
  ⟨d.m, d.data.set j (AddScaled (d.data.getD j []) c y)⟩

/-- `Scale(c, dst)` applied to itself: multiply every entry by `c`. -/
def Dense.scale (d : Dense) (c : ℚ) : Dense :=
  ⟨d.m, d.data.map (List.map (fun q => c * q))⟩

/-- Well-formedness of the matrix model: every column holds exactly `m`
rows (true of every real `mat64.Dense`). -/
def Dense.wf (d : Dense) : Prop :=
  ∀ c ∈ d.data, c.length = d.m

instance (d : Dense) : Decidable d.wf := by
  unfold Dense.wf; infer_instance

instance {α β : Type} [DecidableEq α] [DecidableEq β] :
    DecidableEq (Except α β) := fun a b =>
  match a, b with
  | .error s, .error t =>
    if h : s = t then isTrue (by rw [h])
    else isFalse (fun hc => by cases hc; exact h rfl)
  | .ok s, .ok t =>
    if h : s = t then isTrue (by rw [h])
    else isFalse (fun hc => by cases hc; exact h rfl)
  | .error _, .ok _ => isFalse (fun hc => by cases hc)
  | .ok _, .error _ => isFalse (fun hc => by cases hc)

/-- State threaded through the serial per-column stencil loop: the column
accumulator, the (lazily computed) origin value, and the trace of inputs
`f` has been evaluated at so far. -/
structure SPs where
  col : List ℚ
  origin : Option (List ℚ)
  tr : List (List ℚ)

/-- One iteration of the stencil loop of `jacobianSerial` (lines
352-366 of the source): the origin point reuses or lazily computes the
origin value, any other point evaluates `f` at the perturbed copy of `x`. -/
def serialPoint (f : List ℚ → List ℚ) (x : List ℚ) (step : ℚ) (j : ℕ)
    (s : SPs) (pt : Point) : SPs :=
  if pt.Loc = 0 then
    match s.origin with
    | some o => ⟨AddScaled s.col pt.Coeff o, some o, s.tr⟩
    | none =>
        let o := f x
        ⟨AddScaled s.col pt.Coeff o, some o, s.tr ++ [x]⟩
  else
    let xp := perturb x j (pt.Loc * step)
    let y := f xp
    ⟨AddScaled s.col pt.Coeff y, s.origin, s.tr ++ [xp]⟩

/-- State threaded through the serial column loop. -/
structure SCs where
  d : Dense
  origin : Option (List ℚ)
  tr : List (List ℚ)

/-- One column of `jacobianSerial`: accumulate the stencil into a zeroed
column buffer, then `SetCol` it into the destination. -/
def serialCol (f : List ℚ → List ℚ) (x : List ℚ) (step : ℚ) (m : ℕ)
    (stencil : List Point) (s : SCs) (j : ℕ) : SCs :=
  let r := stencil.foldl (serialPoint f x step j) ⟨List.replicate m 0, s.origin, s.tr⟩
  ⟨s.d.setCol j r.col, r.origin, r.tr⟩

/-- Model of `jacobianSerial` (source lines 343-370): fill every column,
then scale the whole matrix by `1/step`.  Besides the matrix it returns the
trace of all inputs `f` was evaluated at. -/
def jacobianSerial (dst : Dense) (f : List ℚ → List ℚ) (x : List ℚ)
    (origin : Option (List ℚ)) (formula : Formula) (step : ℚ) :
    Dense × List (List ℚ) :=
  let m := dst.m
  let n := dst.data.length
  let r := (List.range n).foldl (serialCol f x step m formula.stencilList) ⟨dst, origin, []⟩
  (r.d.scale (1 / step), r.tr)

/-- The zeroing double loop opening `jacobianConcurrent` (source lines
374-378): `for i < m { for j < n { dst.Set(i, j, 0) } }`. -/
def zeroAll (d : Dense) : Dense :=
  let m := d.m
  let n := d.data.length
  (List.range m).foldl
    (fun d i => (List.range n).foldl (fun d j => d.set i j 0) d) d

/-- State of the concurrent job phase: the shared matrix, whether an origin
point was seen (and its last coefficient), and the evaluation trace. -/
structure CJs where
  d : Dense
  hasOrigin : Bool
  originCoeff : ℚ
  tr : List (List ℚ)

/-- One concurrent job (worker body, source lines 389-397): perturb a fresh
copy of `x` in coordinate `j`, evaluate `f`, and add the weighted result
into column `j` (the per-column lock makes this an atomic column update, so
the value computed is schedule-independent). -/
def concJob (f : List ℚ → List ℚ) (x : List ℚ) (step : ℚ) (pt : Point)
    (s : CJs) (j : ℕ) : CJs :=
  let xp := perturb x j (pt.Loc * step)
  let y := f xp
  ⟨s.d.colAddScaled j pt.Coeff y, s.hasOrigin, s.originCoeff, s.tr ++ [xp]⟩

/-- Job generation per stencil point (source lines 408-417): an origin point
is recorded and skipped, any other point enqueues one job per column. -/
def concPoint (f : List ℚ → List ℚ) (x : List ℚ) (step : ℚ) (n : ℕ)
    (s : CJs) (pt : Point) : CJs :=
  if pt.Loc = 0 then ⟨s.d, true, pt.Coeff, s.tr⟩
  else (List.range n).foldl (concJob f x step pt) s

/-- Model of `jacobianConcurrent` (source lines 372-442).  The worker pool
only changes scheduling, not the value of any column (each column is an
order-insensitive sum of its jobs' contributions over exact arithmetic), so
the model executes the job stream deterministically; `nWorkers` is kept as
an argument for signature fidelity.  After the pool drains: the origin is
evaluated once (concurrently in the source) if an origin point exists and no
precomputed value was supplied, its weighted value is folded into every
column, and the matrix is scaled by `1/step`. -/
def jacobianConcurrent (dst : Dense) (f : List ℚ → List ℚ) (x : List ℚ)
    (origin : Option (List ℚ)) (formula : Formula) (step : ℚ)
    (nWorkers : ℕ) : Dense × List (List ℚ) :=
  let n := dst.data.length
  let d0 := zeroAll dst
  let s1 := formula.stencilList.foldl (concPoint f x step n) ⟨d0, false, 0, []⟩
  let origin2 := if s1.hasOrigin && origin.isNone then some (f x) else origin
  let tr2 := if s1.hasOrigin && origin.isNone then s1.tr ++ [x] else s1.tr
  let d2 :=
    if s1.hasOrigin then
      (List.range n).foldl (fun d j => d.colAddScaled j s1.originCoeff (origin2.getD [])) s1.d
    else s1.d
  (d2.scale (1 / step), tr2)

/-- The evaluation count of the orchestrator (source lines 322-328):
`n * |stencil|`, minus `n - 1` once if the stencil contains an origin
point. -/
def jacEvals (n : ℕ) (stencil : List Point) : ℕ :=
  let evals := n * stencil.length
  if stencil.any (fun pt => pt.Loc == 0) then evals - (n - 1) else evals

/-- The worker count of the orchestrator (source lines 329-335): 1 when
concurrency is not requested, otherwise `GOMAXPROCS` capped at `evals`. -/
def jacWorkers (concurrent : Bool) (gomaxprocs evals : ℕ) : ℕ :=
  if concurrent then min gomaxprocs evals else 1

/-- The formula the call resolves to: the settings' formula, or the default
`Forward` formula when that is the zero value (source lines 306-309). -/
def resolvedFormula (settings : Option JacobianSettings) : Formula :=
  let s := settings.getD JacobianSettings.zero
  if s.Formula.isZero then Forward else s.Formula

/-- The step the call resolves to (source lines 317-320). -/
def resolvedStep (settings : Option JacobianSettings) : ℚ :=
  let s := settings.getD JacobianSettings.zero
  if s.Step = 0 then (resolvedFormula settings).Step else s.Step

/-- Model of `fd.Jacobian` (source lines 289-341): validation, default
resolution, evaluation counting, worker-count determination, and dispatch.
The result is the panic-or-matrix outcome paired with the trace of all
inputs `f` was evaluated at; a panic (`.error`) fires before any evaluation
of `f` (empty trace) and before any write to the destination. -/
def Jacobian (dst : Dense) (f : List ℚ → List ℚ) (x : List ℚ)
    (settings : Option JacobianSettings) (gomaxprocs : ℕ) :
    Except String Dense × List (List ℚ) :=
  let n := x.length
  if n = 0 then (.error "jacobian: x has zero length", []) else
  let m := dst.m
  let c := dst.data.length
  if c ≠ n then (.error "jacobian: mismatched matrix size", []) else
  let s := settings.getD JacobianSettings.zero
  if s.OriginValue.isSome ∧ (s.OriginValue.getD []).length ≠ m then
    (.error "jacobian: mismatched OriginValue slice length", []) else
  let formula := resolvedFormula settings
  if formula.Derivative = 0 ∨ formula.Stencil = none ∨ formula.Step = 0 then
    (.error "jacobian: bad formula", []) else
  if formula.Derivative ≠ 1 then
    (.error "jacobian: invalid derivative order", []) else
  let step := resolvedStep settings
  let evals := jacEvals n formula.stencilList
  let nWorkers := jacWorkers s.Concurrent gomaxprocs evals
  if nWorkers = 1 then
    let r := jacobianSerial dst f x s.OriginValue formula step
    (.ok r.1, r.2)
  else
    let r := jacobianConcurrent dst f x s.OriginValue formula step nWorkers
    (.ok r.1, r.2)

/-- The value a stencil point contributes from: the resolved origin value
`ov` for the origin point, `f` at the perturbed point otherwise. -/
def specVal (f : List ℚ → List ℚ) (x : List ℚ) (ov : List ℚ) (step : ℚ)
    (j : ℕ) (pt : Point) : List ℚ :=
  if pt.Loc = 0 then ov else f (perturb x j (pt.Loc * step))

/-- Pure closed form of the serial column loop: the list of the first `k`
columns (before the final scaling), together with the origin cache and the
evaluation trace after `k` columns.  Defined from `serialPoint` itself, so
it depends on neither the destination matrix nor its contents. -/
def colsFun (f : List ℚ → List ℚ) (x : List ℚ) (step : ℚ) (m : ℕ)
    (st : List Point) (org0 : Option (List ℚ)) (tr0 : List (List ℚ)) :
    ℕ → List (List ℚ) × Option (List ℚ) × List (List ℚ)
  | 0 => ([], org0, tr0)
  | k + 1 =>
    let p := colsFun f x step m st org0 tr0 k
    let r := st.foldl (serialPoint f x step k) ⟨List.replicate m 0, p.2.1, p.2.2⟩
    (p.1 ++ [r.col], r.origin, r.tr)

/-- The last origin coefficient scanned by the concurrent job-generation
loop (`originCoeff` is overwritten at each origin point). -/
def lastOC (st : List Point) (a0 : ℚ) : ℚ :=
  st.foldl (fun a pt => if pt.Loc = 0 then pt.Coeff else a) a0

/-- The n-by-n identity matrix as a column list. -/
def idCols (n : ℕ) : List (List ℚ) :=
  (List.range n).map (fun j => (List.range n).map (fun i => if i = j then (1 : ℚ) else 0))

/-! ### List helper lemmas -/

theorem getD_lt {α : Type} (l : List α) (i : ℕ) (d : α) (h : i < l.length) :
    l.getD i d = l[i] := by
  simp [List.getD_eq_getElem?_getD, List.getElem?_eq_getElem h]

theorem getD_ge {α : Type} (l : List α) (i : ℕ) (d : α) (h : l.length ≤ i) :
    l.getD i d = d := by
  simp [List.getD_eq_getElem?_getD, List.getElem?_eq_none h]

theorem getD_set_self {α : Type} (l : List α) (i : ℕ) (v d : α) (h : i < l.length) :
    (l.set i v).getD i d = v := by
  rw [getD_lt _ _ _ (by simpa using h)]
  simp [List.getElem_set_self]

theorem getD_set_ne {α : Type} (l : List α) (i k : ℕ) (v d : α) (hne : i ≠ k) :
    (l.set i v).getD k d = l.getD k d := by
  by_cases hk : k < l.length
  · rw [getD_lt _ _ _ (by simpa using hk), getD_lt _ _ _ hk]
    simp [List.getElem_set_ne hne]
  · rw [getD_ge _ _ _ (by simpa using Nat.le_of_not_lt hk),
      getD_ge _ _ _ (Nat.le_of_not_lt hk)]

theorem getD_replicate {α : Type} (m i : ℕ) (a d : α) (h : i < m) :
    (List.replicate m a).getD i d = a := by
  rw [getD_lt _ _ _ (by simpa using h)]
  simp

theorem ext_getD {α : Type} (d : α) {l1 l2 : List α} (hlen : l1.length = l2.length)
    (h : ∀ i, i < l1.length → l1.getD i d = l2.getD i d) : l1 = l2 := by
  apply List.ext_getElem hlen
  intro i h1 h2
  have hi := h i h1
  rwa [getD_lt _ _ _ h1, getD_lt _ _ _ h2] at hi

theorem AddScaled_length (a : List ℚ) (c : ℚ) (b : List ℚ) :
    (AddScaled a c b).length = min a.length b.length := by
  simp [AddScaled]

theorem AddScaled_getD (a : List ℚ) (c : ℚ) (b : List ℚ) (i : ℕ)
    (ha : i < a.length) (hb : i < b.length) :
    (AddScaled a c b).getD i 0 = a.getD i 0 + c * b.getD i 0 := by
  have hl : i < (AddScaled a c b).length := by
    rw [AddScaled_length]; omega
  rw [getD_lt _ _ _ hl, getD_lt _ _ _ ha, getD_lt _ _ _ hb]
  simp [AddScaled, List.getElem_zipWith]

theorem perturb_length (x : List ℚ) (j : ℕ) (delta : ℚ) :
    (perturb x j delta).length = x.length := by
  simp [perturb]

theorem perturb_getD_self (x : List ℚ) (j : ℕ) (delta : ℚ) (h : j < x.length) :
    (perturb x j delta).getD j 0 = x.getD j 0 + delta :=
  getD_set_self x j _ 0 h

theorem perturb_getD_ne (x : List ℚ) (j i : ℕ) (delta : ℚ) (hne : j ≠ i) :
    (perturb x j delta).getD i 0 = x.getD i 0 :=
  getD_set_ne x j i _ 0 hne

theorem perturb_ne (x : List ℚ) (j : ℕ) (delta : ℚ)
    (hj : j < x.length) (hd : delta ≠ 0) : perturb x j delta ≠ x := by
  intro he
  have h2 := congrArg (fun l => l.getD j 0) he
  simp only [perturb_getD_self x j delta hj] at h2
  exact hd (by linarith)

theorem count_append_one {α : Type} [BEq α] [LawfulBEq α] [DecidableEq α]
    (l : List α) (v x : α) :
    (l ++ [v]).count x = l.count x + if v = x then 1 else 0 := by
  rw [List.count_append, List.count_cons]
  by_cases h : v = x <;> simp [h]

theorem getD_map_zero_mul (c : ℚ) (l : List ℚ) (i : ℕ) :
    (l.map (fun q => c * q)).getD i 0 = c * l.getD i 0 := by
  by_cases h : i < l.length
  · rw [getD_lt _ _ _ (by simpa using h), getD_lt _ _ _ h]
    simp
  · rw [getD_ge _ _ _ (by simpa using Nat.le_of_not_lt h),
      getD_ge _ _ _ (Nat.le_of_not_lt h)]
    simp

theorem getD_map_nil (g : List ℚ → List ℚ) (hg : g [] = [])
    (l : List (List ℚ)) (j : ℕ) :
    (l.map g).getD j [] = g (l.getD j []) := by
  by_cases h : j < l.length
  · rw [getD_lt _ _ _ (by simpa using h), getD_lt _ _ _ h]
    simp
  · rw [getD_ge _ _ _ (by simpa using Nat.le_of_not_lt h),
      getD_ge _ _ _ (Nat.le_of_not_lt h), hg]

theorem get_scale (d : Dense) (c : ℚ) (i j : ℕ) :
    (d.scale c).get i j = c * d.get i j := by
  show ((d.data.map (List.map (fun q => c * q))).getD j []).getD i 0
      = c * (d.data.getD j []).getD i 0
  rw [getD_map_nil _ (by simp)]
  exact getD_map_zero_mul c _ i

theorem sum_map_filter_split (p : Point → Bool) (g : Point → ℚ) (l : List Point) :
    (l.map g).sum
      = ((l.filter p).map g).sum + ((l.filter (fun a => !(p a))).map g).sum := by
  induction l with
  | nil => simp
  | cons a t ih =>
    by_cases h : p a <;> simp [h, ih] <;> ring

theorem lastOC_of_filter_nil (st : List Point) (a0 : ℚ)
    (h : st.filter (fun pt => pt.Loc == 0) = []) : lastOC st a0 = a0 := by
  induction st generalizing a0 with
  | nil => rfl
  | cons pt t ih =>
    simp only [List.filter_cons] at h
    by_cases hpt : pt.Loc = 0
    · simp [hpt] at h
    · simp only [lastOC, List.foldl_cons, if_neg hpt]
      exact ih a0 (by simpa [hpt] using h)

theorem lastOC_of_filter_single (st : List Point) (a0 : ℚ) (pt0 : Point)
    (h : st.filter (fun pt => pt.Loc == 0) = [pt0]) : lastOC st a0 = pt0.Coeff := by
  induction st generalizing a0 with
  | nil => simp at h
  | cons pt t ih =>
    by_cases hpt : pt.Loc = 0
    · simp only [List.filter_cons, hpt] at h
      simp only [beq_self_eq_true, if_true, List.cons.injEq] at h
      obtain ⟨h1, h2⟩ := h
      simp only [lastOC, List.foldl_cons, if_pos hpt]
      have h3 : lastOC t pt.Coeff = pt.Coeff := lastOC_of_filter_nil t pt.Coeff h2
      rw [show (List.foldl (fun a pt => if pt.Loc = 0 then pt.Coeff else a) pt.Coeff t
            = lastOC t pt.Coeff) from rfl, h3, h1]
    · have hb : (pt.Loc == 0) = false := by simpa using hpt
      simp only [List.filter_cons, hb, Bool.false_eq_true, if_false] at h
      simp only [lastOC, List.foldl_cons, if_neg hpt]
      exact ih a0 h

theorem any_eq_true_of_filter_single (st : List Point) (pt0 : Point)
    (h : st.filter (fun pt => pt.Loc == 0) = [pt0]) :
    st.any (fun pt => pt.Loc == 0) = true := by
  rw [List.any_eq_true]
  have hm : pt0 ∈ st.filter (fun pt => pt.Loc == 0) := by
    rw [h]; exact List.mem_singleton_self pt0
  obtain ⟨h1, h2⟩ := List.mem_filter.mp hm
  exact ⟨pt0, h1, h2⟩

theorem any_eq_false_of_filter_nil (st : List Point)
    (h : st.filter (fun pt => pt.Loc == 0) = []) :
    st.any (fun pt => pt.Loc == 0) = false := by
  rw [List.any_eq_false]
  intro pt hpt hl
  have : pt ∈ st.filter (fun pt => pt.Loc == 0) := List.mem_filter.mpr ⟨hpt, hl⟩
  rw [h] at this
  exact absurd this (List.not_mem_nil pt)

theorem getD_append_left {α : Type} (l1 l2 : List α) (j : ℕ) (d : α)
    (h : j < l1.length) : (l1 ++ l2).getD j d = l1.getD j d := by
  rw [getD_lt _ _ _ (by simp; omega), getD_lt _ _ _ h]
  exact List.getElem_append_left h

theorem getD_append_at {α : Type} (l1 : List α) (v d : α) :
    (l1 ++ [v]).getD l1.length d = v := by
  rw [getD_lt _ _ _ (by simp)]
  simp

theorem getD_append_at_of_length {α : Type} (l1 : List α) (v d : α) (k : ℕ)
    (hk : l1.length = k) : (l1 ++ [v]).getD k d = v := by
  subst hk
  exact getD_append_at l1 v d

theorem set_append_length {α : Type} (l1 l2 : List α) (v : α) (k : ℕ)
    (hk : l1.length = k) : (l1 ++ l2).set k v = l1 ++ l2.set 0 v := by
  subst hk; simp [List.set_append]

theorem drop_set_zero {α : Type} (l : List α) (k : ℕ) (v : α) (hk : k < l.length) :
    (l.drop k).set 0 v = v :: l.drop (k + 1) := by
  rw [List.drop_eq_getElem_cons hk]; rfl

/-! ### Serial evaluator: closed forms -/

theorem foldl_AddScaled_length (st : List Point) (v : Point → List ℚ) (c0 : List ℚ)
    (hv : ∀ pt ∈ st, (v pt).length = c0.length) :
    (st.foldl (fun c pt => AddScaled c pt.Coeff (v pt)) c0).length = c0.length := by
  induction st generalizing c0 with
  | nil => rfl
  | cons pt t ih =>
    simp only [List.foldl_cons]
    have h1 : (AddScaled c0 pt.Coeff (v pt)).length = c0.length := by
      rw [AddScaled_length, hv pt (List.mem_cons_self pt t)]
      omega
    rw [ih _ (fun q hq => by rw [hv q (List.mem_cons_of_mem pt hq), ← h1]), h1]

theorem foldl_AddScaled_getD (st : List Point) (v : Point → List ℚ) (c0 : List ℚ)
    (i : ℕ) (hv : ∀ pt ∈ st, (v pt).length = c0.length) (hi : i < c0.length) :
    (st.foldl (fun c pt => AddScaled c pt.Coeff (v pt)) c0).getD i 0
      = c0.getD i 0 + (st.map (fun pt => pt.Coeff * (v pt).getD i 0)).sum := by
  induction st generalizing c0 with
  | nil => simp
  | cons pt t ih =>
    simp only [List.foldl_cons, List.map_cons, List.sum_cons]
    have h1 : (AddScaled c0 pt.Coeff (v pt)).length = c0.length := by
      rw [AddScaled_length, hv pt (List.mem_cons_self pt t)]
      omega
    rw [ih _ (fun q hq => by rw [hv q (List.mem_cons_of_mem pt hq), ← h1])
        (h1 ▸ hi)]
    rw [AddScaled_getD _ _ _ _ hi (by rw [hv pt (List.mem_cons_self pt t)]; exact hi)]
    ring

theorem serial_stencil_fold (f : List ℚ → List ℚ) (x : List ℚ) (step : ℚ) (j : ℕ)
    (st : List Point) (s : SPs) :
    (st.foldl (serialPoint f x step j) s).col
        = st.foldl
            (fun c pt => AddScaled c pt.Coeff (specVal f x (s.origin.getD (f x)) step j pt))
            s.col
      ∧ (st.foldl (serialPoint f x step j) s).origin
        = (if st.any (fun pt => pt.Loc == 0) then some (s.origin.getD (f x)) else s.origin) := by
  induction st generalizing s with
  | nil => simp
  | cons pt t ih =>
    simp only [List.foldl_cons, List.any_cons]
    by_cases hpt : pt.Loc = 0
    · cases horg : s.origin with
      | none =>
        have hs : serialPoint f x step j s pt
            = ⟨AddScaled s.col pt.Coeff (f x), some (f x), s.tr ++ [x]⟩ := by
          simp [serialPoint, hpt, horg]
        rw [hs]
        obtain ⟨ic, io⟩ := ih ⟨AddScaled s.col pt.Coeff (f x), some (f x), s.tr ++ [x]⟩
        refine ⟨?_, ?_⟩
        · rw [ic]
          simp [specVal, hpt, horg]
        · rw [io]
          simp [hpt, horg]
      | some o =>
        have hs : serialPoint f x step j s pt
            = ⟨AddScaled s.col pt.Coeff o, some o, s.tr⟩ := by
          simp [serialPoint, hpt, horg]
        rw [hs]
        obtain ⟨ic, io⟩ := ih ⟨AddScaled s.col pt.Coeff o, some o, s.tr⟩
        refine ⟨?_, ?_⟩
        · rw [ic]
          simp [specVal, hpt, horg]
        · rw [io]
          simp only [horg, Option.getD_some]
          cases h2 : t.any (fun pt => pt.Loc == 0) <;> simp [hpt]
    · have hs : serialPoint f x step j s pt
          = ⟨AddScaled s.col pt.Coeff (f (perturb x j (pt.Loc * step))), s.origin,
             s.tr ++ [perturb x j (pt.Loc * step)]⟩ := by
        simp [serialPoint, hpt]
      rw [hs]
      obtain ⟨ic, io⟩ := ih ⟨AddScaled s.col pt.Coeff (f (perturb x j (pt.Loc * step))),
        s.origin, s.tr ++ [perturb x j (pt.Loc * step)]⟩
      refine ⟨?_, ?_⟩
      · rw [ic]
        simp [specVal, hpt]
      · rw [io]
        simp [hpt]

theorem colsFun_cols_length (f : List ℚ → List ℚ) (x : List ℚ) (step : ℚ) (m : ℕ)
    (st : List Point) (org0 : Option (List ℚ)) (tr0 : List (List ℚ)) (k : ℕ) :
    (colsFun f x step m st org0 tr0 k).1.length = k := by
  induction k with
  | zero => rfl
  | succ k ih => simp [colsFun, ih]

theorem serial_col_fold (f : List ℚ → List ℚ) (x : List ℚ) (step : ℚ) (m : ℕ)
    (st : List Point) (d : Dense) (org0 : Option (List ℚ)) (tr0 : List (List ℚ))
    (k : ℕ) (hk : k ≤ d.data.length) :
    (List.range k).foldl (serialCol f x step m st) ⟨d, org0, tr0⟩
      = ⟨⟨d.m, (colsFun f x step m st org0 tr0 k).1 ++ d.data.drop k⟩,
         (colsFun f x step m st org0 tr0 k).2.1,
         (colsFun f x step m st org0 tr0 k).2.2⟩ := by
  induction k with
  | zero => simp [colsFun]
  | succ k ih =>
    rw [List.range_succ, List.foldl_append, ih (Nat.le_of_succ_le hk)]
    simp only [List.foldl_cons, List.foldl_nil, serialCol, colsFun, Dense.setCol]
    rw [set_append_length _ _ _ k (colsFun_cols_length f x step m st org0 tr0 k),
      drop_set_zero _ _ _ (Nat.lt_of_succ_le hk)]
    simp [List.append_assoc]

theorem jacobianSerial_char (dst : Dense) (f : List ℚ → List ℚ) (x : List ℚ)
    (org : Option (List ℚ)) (fo : Formula) (step : ℚ) :
    jacobianSerial dst f x org fo step
      = (Dense.scale
          ⟨dst.m, (colsFun f x step dst.m fo.stencilList org [] dst.data.length).1⟩
          (1 / step),
         (colsFun f x step dst.m fo.stencilList org [] dst.data.length).2.2) := by
  simp only [jacobianSerial]
  rw [serial_col_fold f x step dst.m fo.stencilList dst org [] dst.data.length le_rfl]
  simp [List.drop_length]

theorem specVal_length (f : List ℚ → List ℚ) (x : List ℚ) (ov : List ℚ)
    (step : ℚ) (m j : ℕ)
    (hf : ∀ v, v.length = x.length → (f v).length = m) (hovm : ov.length = m) :
    ∀ pt, (specVal f x ov step j pt).length = m := by
  intro pt
  unfold specVal
  by_cases hpt : pt.Loc = 0
  · simp [hpt, hovm]
  · simp only [if_neg hpt]
    exact hf _ (perturb_length x j _)

theorem colsFun_spec (f : List ℚ → List ℚ) (x : List ℚ) (step : ℚ) (m : ℕ)
    (st : List Point) (org0 : Option (List ℚ)) (tr0 : List (List ℚ))
    (hf : ∀ v, v.length = x.length → (f v).length = m)
    (hovm : (org0.getD (f x)).length = m) (k : ℕ) :
    ((colsFun f x step m st org0 tr0 k).2.1).getD (f x) = org0.getD (f x)
      ∧ (∀ c ∈ (colsFun f x step m st org0 tr0 k).1, c.length = m)
      ∧ (∀ jj, jj < k → (colsFun f x step m st org0 tr0 k).1.getD jj []
          = st.foldl (fun c pt => AddScaled c pt.Coeff
              (specVal f x (org0.getD (f x)) step jj pt)) (List.replicate m 0)) := by
  induction k with
  | zero =>
    refine ⟨rfl, ?_, ?_⟩
    · intro c hc
      simp [colsFun] at hc
    · intro jj hjj
      omega
  | succ k ih =>
    obtain ⟨iorg, ilen, ient⟩ := ih
    obtain ⟨hcol, horg⟩ := serial_stencil_fold f x step k st
      ⟨List.replicate m 0, (colsFun f x step m st org0 tr0 k).2.1,
       (colsFun f x step m st org0 tr0 k).2.2⟩
    simp only at hcol horg
    rw [iorg] at hcol horg
    have e1 : (colsFun f x step m st org0 tr0 (k + 1)).2.1
        = (st.foldl (serialPoint f x step k)
            ⟨List.replicate m 0, (colsFun f x step m st org0 tr0 k).2.1,
             (colsFun f x step m st org0 tr0 k).2.2⟩).origin := rfl
    have e2 : (colsFun f x step m st org0 tr0 (k + 1)).1
        = (colsFun f x step m st org0 tr0 k).1
          ++ [(st.foldl (serialPoint f x step k)
              ⟨List.replicate m 0, (colsFun f x step m st org0 tr0 k).2.1,
               (colsFun f x step m st org0 tr0 k).2.2⟩).col] := rfl
    have hrlen : (st.foldl (serialPoint f x step k)
        ⟨List.replicate m 0, (colsFun f x step m st org0 tr0 k).2.1,
         (colsFun f x step m st org0 tr0 k).2.2⟩).col.length = m := by
      rw [hcol, foldl_AddScaled_length]
      · exact List.length_replicate m 0
      · intro pt _
        rw [List.length_replicate]
        exact specVal_length f x _ step m k hf hovm pt
    refine ⟨?_, ?_, ?_⟩
    · rw [e1, horg]
      cases hany : st.any (fun pt => pt.Loc == 0) <;> simp [hany, iorg]
    · intro c hc
      rw [e2] at hc
      rcases List.mem_append.mp hc with h | h
      · exact ilen c h
      · rw [List.mem_singleton.mp h]
        exact hrlen
    · intro jj hjj
      rw [e2]
      rcases Nat.lt_succ_iff_lt_or_eq.mp hjj with h | h
      · rw [getD_append_left _ _ _ _
          (by rw [colsFun_cols_length]; exact h)]
        exact ient jj h
      · subst h
        rw [getD_append_at_of_length _ _ _ _
          (colsFun_cols_length f x step m st org0 tr0 jj)]
        exact hcol

theorem jacobianSerial_get (dst : Dense) (f : List ℚ → List ℚ) (x : List ℚ)
    (org : Option (List ℚ)) (fo : Formula) (step : ℚ) (i j : ℕ)
    (hf : ∀ v, v.length = x.length → (f v).length = dst.m)
    (hovm : (org.getD (f x)).length = dst.m)
    (hi : i < dst.m) (hj : j < dst.data.length) :
    ((jacobianSerial dst f x org fo step).1).get i j
      = (1 / step) * (fo.stencilList.map (fun pt =>
          pt.Coeff * (specVal f x (org.getD (f x)) step j pt).getD i 0)).sum := by
  rw [jacobianSerial_char, get_scale]
  obtain ⟨-, -, hent⟩ := colsFun_spec f x step dst.m fo.stencilList org []
    hf hovm dst.data.length
  show (1 / step) * ((((colsFun f x step dst.m fo.stencilList org []
      dst.data.length).1).getD j []).getD i 0) = _
  rw [hent j hj]
  rw [foldl_AddScaled_getD _ _ _ _
      (fun pt _ => by
        rw [List.length_replicate]
        exact specVal_length f x _ step dst.m j hf hovm pt)
      (by rw [List.length_replicate]; exact hi)]
  rw [getD_replicate _ _ _ _ hi]
  ring

/-! ### Concurrent evaluator: closed forms -/

theorem getD_append_right_at {α : Type} (l1 l2 : List α) (d : α) (k : ℕ)
    (hk : l1.length = k) : (l1 ++ l2).getD k d = l2.getD 0 d := by
  subst hk
  induction l1 with
  | nil => rfl
  | cons a t ih => simpa using ih

theorem getD_drop_zero {α : Type} (l : List α) (k : ℕ) (d : α) (hk : k < l.length) :
    (l.drop k).getD 0 d = l.getD k d := by
  rw [List.drop_eq_getElem_cons hk, getD_lt _ _ _ hk]
  rfl

theorem getD_mem {α : Type} (l : List α) (j : ℕ) (d : α) (h : j < l.length) :
    l.getD j d ∈ l := by
  rw [getD_lt _ _ _ h]
  exact List.getElem_mem h

theorem inner_zero_fold (i K : ℕ) :
    ∀ (dd : Dense), K ≤ dd.data.length →
    (List.range K).foldl (fun d j => d.set i j 0) dd
      = ⟨dd.m, (dd.data.take K).map (fun c => c.set i 0) ++ dd.data.drop K⟩ := by
  induction K with
  | zero =>
    intro dd _
    simp
  | succ K ih =>
    intro dd h
    rw [List.range_succ, List.foldl_append, ih dd (Nat.le_of_succ_le h)]
    simp only [List.foldl_cons, List.foldl_nil, Dense.set]
    have hK : K < dd.data.length := Nat.lt_of_succ_le h
    have hlen : ((dd.data.take K).map (fun c => c.set i 0)).length = K := by
      simp [List.length_take]
      omega
    have hget : ((dd.data.take K).map (fun c => c.set i 0) ++ dd.data.drop K).getD K []
        = dd.data.getD K [] := by
      rw [getD_append_right_at _ _ _ _ hlen, getD_drop_zero _ _ _ hK]
    rw [hget, set_append_length _ _ _ _ hlen, drop_set_zero _ _ _ hK]
    rw [getD_lt _ _ _ hK]
    have htake : (dd.data.take (K + 1)).map (fun c => c.set i 0)
        = (dd.data.take K).map (fun c => c.set i 0) ++ [dd.data[K].set i 0] := by
      rw [← List.take_concat_get dd.data K hK, List.concat_eq_append, List.map_append]
      rfl
    rw [htake, List.append_assoc]
    rfl

theorem outer_zero_fold (n : ℕ) :
    ∀ (K : ℕ) (dd : Dense), dd.data.length = n →
    (List.range K).foldl
        (fun d i => (List.range n).foldl (fun d j => d.set i j 0) d) dd
      = ⟨dd.m, dd.data.map (fun c => (List.range K).foldl (fun c i => c.set i 0) c)⟩ := by
  intro K
  induction K with
  | zero =>
    intro dd _
    simp
  | succ K ih =>
    intro dd h
    rw [List.range_succ, List.foldl_append, ih dd h]
    simp only [List.foldl_cons, List.foldl_nil]
    rw [inner_zero_fold K n _ (by simp [h])]
    have hneq : n = ((dd.data.map (fun c =>
        (List.range K).foldl (fun c i => c.set i 0) c)).length) := by simp [h]
    rw [List.take_of_length_le (by simp [h]), List.drop_eq_nil_of_le (by simp [h])]
    rw [List.append_nil, List.map_map]
    refine congrArg (fun l => Dense.mk dd.m l) ?_
    apply List.map_congr_left
    intro c _
    simp only [Function.comp]
    rw [List.foldl_append]
    rfl

theorem col_zero_fold (c : List ℚ) (K : ℕ) (hK : K ≤ c.length) :
    ((List.range K).foldl (fun c i => c.set i 0) c).length = c.length
      ∧ ∀ i, ((List.range K).foldl (fun c i => c.set i 0) c).getD i 0
          = if i < K then 0 else c.getD i 0 := by
  induction K with
  | zero =>
    refine ⟨rfl, ?_⟩
    intro i
    simp
  | succ K ih =>
    obtain ⟨il, ie⟩ := ih (Nat.le_of_succ_le hK)
    rw [List.range_succ, List.foldl_append]
    simp only [List.foldl_cons, List.foldl_nil]
    refine ⟨by simp [il], ?_⟩
    intro i
    by_cases hiK : i = K
    · subst hiK
      rw [getD_set_self _ _ _ _ (by rw [il]; exact Nat.lt_of_succ_le hK)]
      simp
    · rw [getD_set_ne _ _ _ _ _ (fun he => hiK he.symm), ie i]
      by_cases h1 : i < K
      · simp [h1, Nat.lt_succ_of_lt h1]
      · have h2 : ¬ i < K + 1 := by omega
        simp [h1, h2]

theorem zeroAll_eq (d : Dense) (hwf : ∀ c ∈ d.data, c.length = d.m) :
    zeroAll d = ⟨d.m, List.replicate d.data.length (List.replicate d.m 0)⟩ := by
  unfold zeroAll
  rw [outer_zero_fold d.data.length d.m d rfl]
  refine congrArg (fun l => Dense.mk d.m l) ?_
  have hmap : d.data.map (fun c => (List.range d.m).foldl (fun c i => c.set i 0) c)
      = d.data.map (fun _ => List.replicate d.m 0) := by
    apply List.map_congr_left
    intro c hc
    have hcl : c.length = d.m := hwf c hc
    obtain ⟨il, ie⟩ := col_zero_fold c d.m (le_of_eq hcl.symm)
    apply ext_getD (0 : ℚ)
    · rw [il, hcl, List.length_replicate]
    · intro i hi
      rw [il, hcl] at hi
      rw [ie i, if_pos hi, getD_replicate _ _ _ _ hi]
  rw [hmap]
  simp [List.map_const']

theorem get_colAddScaled_ne (d : Dense) (jx : ℕ) (c : ℚ) (y : List ℚ) (i j : ℕ)
    (hne : jx ≠ j) : (d.colAddScaled jx c y).get i j = d.get i j := by
  show ((d.data.set jx (AddScaled (d.data.getD jx []) c y)).getD j []).getD i 0
      = (d.data.getD j []).getD i 0
  rw [getD_set_ne _ _ _ _ _ hne]

theorem get_colAddScaled_self (d : Dense) (j : ℕ) (c : ℚ) (y : List ℚ) (i : ℕ)
    (hj : j < d.data.length) (hi : i < (d.data.getD j []).length)
    (hiy : i < y.length) :
    (d.colAddScaled j c y).get i j = d.get i j + c * y.getD i 0 := by
  show ((d.data.set j (AddScaled (d.data.getD j []) c y)).getD j []).getD i 0
      = (d.data.getD j []).getD i 0 + c * y.getD i 0
  rw [getD_set_self _ _ _ _ hj, AddScaled_getD _ _ _ _ hi hiy]

theorem dense_colfold (cf : ℚ) (w : ℕ → List ℚ) (m : ℕ)
    (hw : ∀ j, (w j).length = m) (K : ℕ) :
    ∀ d : Dense, K ≤ d.data.length → (∀ col ∈ d.data, col.length = m) →
    ((List.range K).foldl (fun d j => d.colAddScaled j cf (w j)) d).m = d.m
      ∧ ((List.range K).foldl (fun d j => d.colAddScaled j cf (w j)) d).data.length
          = d.data.length
      ∧ (∀ col ∈ ((List.range K).foldl (fun d j => d.colAddScaled j cf (w j)) d).data,
          col.length = m)
      ∧ ∀ i j, i < m → j < d.data.length →
          ((List.range K).foldl (fun d j => d.colAddScaled j cf (w j)) d).get i j
            = d.get i j + (if j < K then cf * (w j).getD i 0 else 0) := by
  induction K with
  | zero =>
    intro d _ hcols
    exact ⟨rfl, rfl, hcols, fun i j _ _ => by simp⟩
  | succ K ih =>
    intro d hK hcols
    rw [List.range_succ, List.foldl_append]
    simp only [List.foldl_cons, List.foldl_nil]
    obtain ⟨im, il, icols, ie⟩ := ih d (Nat.le_of_succ_le hK) hcols
    have hKlt : K < ((List.range K).foldl
        (fun d j => d.colAddScaled j cf (w j)) d).data.length := by
      rw [il]; exact Nat.lt_of_succ_le hK
    have hcolK : ((((List.range K).foldl
        (fun d j => d.colAddScaled j cf (w j)) d).data).getD K []).length = m :=
      icols _ (getD_mem _ _ _ hKlt)
    refine ⟨im, ?_, ?_, ?_⟩
    · simp only [Dense.colAddScaled, List.length_set]
      exact il
    · intro col hcol
      rcases List.mem_or_eq_of_mem_set hcol with h | h
      · exact icols col h
      · subst h
        rw [AddScaled_length, hw K, hcolK]
        omega
    · intro i j hi hj
      by_cases hjK : j = K
      · subst hjK
        rw [get_colAddScaled_self _ _ _ _ _ hKlt (by rw [hcolK]; exact hi)
          (by rw [hw]; exact hi)]
        rw [ie i j hi hj]
        simp
      · rw [get_colAddScaled_ne _ _ _ _ _ _ (fun he => hjK he.symm),
          ie i j hi hj]
        by_cases hlt : j < K
        · simp [hlt, Nat.lt_succ_of_lt hlt]
        · have h2 : ¬ j < K + 1 := by omega
          simp [hlt, h2]

theorem conc_job_fold_d (f : List ℚ → List ℚ) (x : List ℚ) (step : ℚ)
    (pt : Point) (K : ℕ) :
    ∀ s : CJs, ((List.range K).foldl (concJob f x step pt) s).d
      = (List.range K).foldl
          (fun d j => d.colAddScaled j pt.Coeff (f (perturb x j (pt.Loc * step))))
          s.d := by
  induction K with
  | zero => intro s; rfl
  | succ K ih =>
    intro s
    rw [List.range_succ, List.foldl_append, List.foldl_append]
    simp only [List.foldl_cons, List.foldl_nil]
    show ((List.range K).foldl (concJob f x step pt) s).d.colAddScaled K pt.Coeff
        (f (perturb x K (pt.Loc * step))) = _
    rw [ih s]

theorem conc_job_fold_flags (f : List ℚ → List ℚ) (x : List ℚ) (step : ℚ)
    (pt : Point) (K : ℕ) :
    ∀ s : CJs, (((List.range K).foldl (concJob f x step pt) s).hasOrigin = s.hasOrigin)
      ∧ (((List.range K).foldl (concJob f x step pt) s).originCoeff = s.originCoeff)
      ∧ (((List.range K).foldl (concJob f x step pt) s).tr
          = s.tr ++ (List.range K).map (fun j => perturb x j (pt.Loc * step))) := by
  induction K with
  | zero => intro s; exact ⟨rfl, rfl, by simp⟩
  | succ K ih =>
    intro s
    obtain ⟨i1, i2, i3⟩ := ih s
    rw [List.range_succ, List.foldl_append]
    simp only [List.foldl_cons, List.foldl_nil]
    refine ⟨i1, i2, ?_⟩
    show ((List.range K).foldl (concJob f x step pt) s).tr
        ++ [perturb x K (pt.Loc * step)] = _
    rw [i3, List.map_append, ← List.append_assoc]
    rfl

theorem conc_stencil_fold (f : List ℚ → List ℚ) (x : List ℚ) (step : ℚ)
    (n m : ℕ) (st : List Point)
    (hf : ∀ v, v.length = x.length → (f v).length = m) :
    ∀ s : CJs, s.d.data.length = n → (∀ col ∈ s.d.data, col.length = m) →
    ((st.foldl (concPoint f x step n) s).d.m = s.d.m)
      ∧ ((st.foldl (concPoint f x step n) s).d.data.length = n)
      ∧ (∀ col ∈ (st.foldl (concPoint f x step n) s).d.data, col.length = m)
      ∧ ((st.foldl (concPoint f x step n) s).hasOrigin
          = (s.hasOrigin || st.any (fun pt => pt.Loc == 0)))
      ∧ ((st.foldl (concPoint f x step n) s).originCoeff = lastOC st s.originCoeff)
      ∧ (∀ i j, i < m → j < n →
          (st.foldl (concPoint f x step n) s).d.get i j
            = s.d.get i j + ((st.filter (fun pt => !(pt.Loc == 0))).map (fun pt =>
                pt.Coeff * (f (perturb x j (pt.Loc * step))).getD i 0)).sum) := by
  induction st with
  | nil =>
    intro s h1 h2
    exact ⟨rfl, h1, h2, by simp, rfl, fun i j _ _ => by simp⟩
  | cons pt t ih =>
    intro s h1 h2
    simp only [List.foldl_cons]
    by_cases hpt : pt.Loc = 0
    · have hc : concPoint f x step n s pt = ⟨s.d, true, pt.Coeff, s.tr⟩ := by
        simp [concPoint, hpt]
      rw [hc]
      obtain ⟨a1, a2, a3, a4, a5, a6⟩ := ih ⟨s.d, true, pt.Coeff, s.tr⟩ h1 h2
      refine ⟨a1, a2, a3, ?_, ?_, ?_⟩
      · rw [a4]
        simp [hpt]
      · rw [a5]
        simp [lastOC, hpt]
      · intro i j hi hj
        rw [a6 i j hi hj]
        simp [hpt, List.filter_cons]
    · have hc : concPoint f x step n s pt
          = (List.range n).foldl (concJob f x step pt) s := by
        simp [concPoint, hpt]
      rw [hc]
      have hd := conc_job_fold_d f x step pt n s
      obtain ⟨f1, f2, -⟩ := conc_job_fold_flags f x step pt n s
      have hwj : ∀ j, (f (perturb x j (pt.Loc * step))).length = m :=
        fun j => hf _ (perturb_length x j _)
      obtain ⟨g1, g2, g3, g4⟩ := dense_colfold pt.Coeff
        (fun j => f (perturb x j (pt.Loc * step))) m hwj n s.d
        (le_of_eq h1.symm) h2
      have h1a : ((List.range n).foldl (concJob f x step pt) s).d.data.length = n := by
        rw [hd, g2, h1]
      have h2a : ∀ col ∈ ((List.range n).foldl (concJob f x step pt) s).d.data,
          col.length = m := by
        rw [hd]; exact g3
      obtain ⟨a1, a2, a3, a4, a5, a6⟩ := ih _ h1a h2a
      have hb : (pt.Loc == 0) = false := by simpa using hpt
      refine ⟨by rw [a1, hd, g1], a2, a3, ?_, ?_, ?_⟩
      · rw [a4, f1]
        simp [hb]
      · rw [a5, f2]
        simp [lastOC, hpt]
      · intro i j hi hj
        rw [a6 i j hi hj, hd, g4 i j hi (h1 ▸ hj), if_pos hj]
        have hfil : (pt :: t).filter (fun pt => !(pt.Loc == 0))
            = pt :: t.filter (fun pt => !(pt.Loc == 0)) := by
          simp [List.filter_cons, hpt]
        rw [hfil, List.map_cons, List.sum_cons]
        ring

theorem count_map_perturb_zero (x : List ℚ) (delta : ℚ) (K : ℕ)
    (hK : K ≤ x.length) (hd : delta ≠ 0) :
    ((List.range K).map (fun j => perturb x j delta)).count x = 0 := by
  rw [List.count_eq_zero]
  intro hmem
  obtain ⟨j, hj, he⟩ := List.mem_map.mp hmem
  rw [List.mem_range] at hj
  exact perturb_ne x j delta (lt_of_lt_of_le hj hK) hd he

theorem conc_stencil_fold_count (f : List ℚ → List ℚ) (x : List ℚ) (step : ℚ)
    (n : ℕ) (st : List Point) (hstep : step ≠ 0) (hxn : n ≤ x.length) :
    ∀ s : CJs, (st.foldl (concPoint f x step n) s).tr.count x = s.tr.count x := by
  induction st with
  | nil => intro s; rfl
  | cons pt t ih =>
    intro s
    simp only [List.foldl_cons]
    by_cases hpt : pt.Loc = 0
    · rw [show concPoint f x step n s pt = ⟨s.d, true, pt.Coeff, s.tr⟩ from by
        simp [concPoint, hpt]]
      exact ih _
    · rw [show concPoint f x step n s pt
          = (List.range n).foldl (concJob f x step pt) s from by
        simp [concPoint, hpt]]
      rw [ih _]
      obtain ⟨-, -, f3⟩ := conc_job_fold_flags f x step pt n s
      rw [f3, List.count_append,
        count_map_perturb_zero x _ n hxn (mul_ne_zero hpt hstep)]
      omega

theorem replicate_cols_len (n m : ℕ) :
    ∀ c ∈ List.replicate n (List.replicate m (0 : ℚ)), c.length = m := by
  intro c hc
  rw [List.eq_of_mem_replicate hc]
  exact List.length_replicate m 0

theorem zero_dense_get (n m i j : ℕ) (hi : i < m) (hj : j < n) :
    (Dense.mk m (List.replicate n (List.replicate m (0 : ℚ)))).get i j = 0 := by
  show ((List.replicate n (List.replicate m (0 : ℚ))).getD j []).getD i 0 = 0
  rw [getD_replicate _ _ _ _ hj, getD_replicate _ _ _ _ hi]

theorem jacobianConcurrent_get (dst : Dense) (f : List ℚ → List ℚ) (x : List ℚ)
    (org : Option (List ℚ)) (fo : Formula) (step : ℚ) (w : ℕ) (i j : ℕ)
    (hwf : ∀ c ∈ dst.data, c.length = dst.m)
    (hf : ∀ v, v.length = x.length → (f v).length = dst.m)
    (hovm : (org.getD (f x)).length = dst.m)
    (hi : i < dst.m) (hj : j < dst.data.length) :
    ((jacobianConcurrent dst f x org fo step w).1).get i j
      = (1 / step) * (((fo.stencilList.filter (fun pt => !(pt.Loc == 0))).map
            (fun pt => pt.Coeff * (f (perturb x j (pt.Loc * step))).getD i 0)).sum
          + (if fo.stencilList.any (fun pt => pt.Loc == 0)
             then lastOC fo.stencilList 0 * (org.getD (f x)).getD i 0 else 0)) := by
  obtain ⟨a1, a2, a3, a4, a5, a6⟩ := conc_stencil_fold f x step dst.data.length
    dst.m fo.stencilList hf
    ⟨⟨dst.m, List.replicate dst.data.length (List.replicate dst.m 0)⟩, false, 0, []⟩
    (by simp) (replicate_cols_len dst.data.length dst.m)
  simp only [jacobianConcurrent, zeroAll_eq dst hwf]
  rw [a4]
  simp only [Bool.false_or]
  cases hany : fo.stencilList.any (fun pt => pt.Loc == 0) with
  | false =>
    simp only [Bool.false_and, Bool.false_eq_true, if_false]
    rw [get_scale, a6 i j hi hj, zero_dense_get _ _ _ _ hi hj]
    ring
  | true =>
    simp only [Bool.true_and, if_true]
    have hov2 : (if org.isNone = true then some (f x) else org).getD []
        = org.getD (f x) := by
      cases org <;> simp
    rw [hov2, a5]
    obtain ⟨g1, g2, g3, g4⟩ := dense_colfold (lastOC fo.stencilList 0)
      (fun _ => org.getD (f x)) dst.m (fun _ => hovm) dst.data.length
      (fo.stencilList.foldl (concPoint f x step dst.data.length)
        ⟨⟨dst.m, List.replicate dst.data.length (List.replicate dst.m 0)⟩,
         false, 0, []⟩).d
      (le_of_eq a2.symm) a3
    rw [get_scale, g4 i j hi (by rw [a2]; exact hj), if_pos hj,
      a6 i j hi hj, zero_dense_get _ _ _ _ hi hj]
    ring

theorem jacobianConcurrent_shape (dst : Dense) (f : List ℚ → List ℚ) (x : List ℚ)
    (org : Option (List ℚ)) (fo : Formula) (step : ℚ) (w : ℕ)
    (hwf : ∀ c ∈ dst.data, c.length = dst.m)
    (hf : ∀ v, v.length = x.length → (f v).length = dst.m)
    (hovm : (org.getD (f x)).length = dst.m) :
    ((jacobianConcurrent dst f x org fo step w).1).m = dst.m
      ∧ ((jacobianConcurrent dst f x org fo step w).1).data.length = dst.data.length
      ∧ ∀ c ∈ ((jacobianConcurrent dst f x org fo step w).1).data,
          c.length = dst.m := by
  obtain ⟨a1, a2, a3, a4, a5, a6⟩ := conc_stencil_fold f x step dst.data.length
    dst.m fo.stencilList hf
    ⟨⟨dst.m, List.replicate dst.data.length (List.replicate dst.m 0)⟩, false, 0, []⟩
    (by simp) (replicate_cols_len dst.data.length dst.m)
  simp only [jacobianConcurrent, zeroAll_eq dst hwf]
  rw [a4]
  simp only [Bool.false_or]
  cases hany : fo.stencilList.any (fun pt => pt.Loc == 0) with
  | false =>
    simp only [Bool.false_and, Bool.false_eq_true, if_false]
    refine ⟨by simpa [Dense.scale] using a1, by simpa [Dense.scale] using a2, ?_⟩
    intro c hc
    simp only [Dense.scale, List.mem_map] at hc
    obtain ⟨c0, hc0, hce⟩ := hc
    rw [← hce, List.length_map]
    exact a3 c0 hc0
  | true =>
    simp only [Bool.true_and, if_true]
    have hov2 : (if org.isNone = true then some (f x) else org).getD []
        = org.getD (f x) := by
      cases org <;> simp
    rw [hov2, a5]
    obtain ⟨g1, g2, g3, g4⟩ := dense_colfold (lastOC fo.stencilList 0)
      (fun _ => org.getD (f x)) dst.m (fun _ => hovm) dst.data.length
      (fo.stencilList.foldl (concPoint f x step dst.data.length)
        ⟨⟨dst.m, List.replicate dst.data.length (List.replicate dst.m 0)⟩,
         false, 0, []⟩).d
      (le_of_eq a2.symm) a3
    refine ⟨by simpa [Dense.scale] using (g1.trans a1),
      by simpa [Dense.scale] using (g2.trans a2), ?_⟩
    intro c hc
    simp only [Dense.scale, List.mem_map] at hc
    obtain ⟨c0, hc0, hce⟩ := hc
    rw [← hce, List.length_map]
    exact g3 c0 hc0

theorem jacobianConcurrent_count (dst : Dense) (f : List ℚ → List ℚ) (x : List ℚ)
    (org : Option (List ℚ)) (fo : Formula) (step : ℚ) (w : ℕ)
    (hstep : step ≠ 0) (hxn : dst.data.length ≤ x.length) :
    ((jacobianConcurrent dst f x org fo step w).2).count x ≤ 1
      ∧ (org.isSome = true →
          ((jacobianConcurrent dst f x org fo step w).2).count x = 0) := by
  have hc0 := conc_stencil_fold_count f x step dst.data.length fo.stencilList
    hstep hxn ⟨zeroAll dst, false, 0, []⟩
  simp only [jacobianConcurrent]
  by_cases hcond : ((fo.stencilList.foldl (concPoint f x step dst.data.length)
      ⟨zeroAll dst, false, 0, []⟩).hasOrigin && org.isNone) = true
  · rw [if_pos hcond]
    have hcnt : List.count x ((fo.stencilList.foldl
        (concPoint f x step dst.data.length)
        ⟨zeroAll dst, false, 0, []⟩).tr ++ [x]) = 1 := by
      rw [count_append_one, hc0]
      simp
    rw [hcnt]
    refine ⟨le_rfl, ?_⟩
    intro hsome
    cases horg : org with
    | none =>
      rw [horg] at hsome
      simp at hsome
    | some s =>
      rw [horg] at hcond
      simp at hcond
  · rw [if_neg hcond, hc0]
    simp

theorem serial_fold_origin_mono (f : List ℚ → List ℚ) (x : List ℚ) (step : ℚ)
    (j : ℕ) (st : List Point) (s : SPs) (h : s.origin ≠ none) :
    (st.foldl (serialPoint f x step j) s).origin ≠ none := by
  obtain ⟨-, ho⟩ := serial_stencil_fold f x step j st s
  rw [ho]
  cases hany : st.any (fun pt => pt.Loc == 0) <;> simp [h]

theorem serial_fold_count (f : List ℚ → List ℚ) (x : List ℚ) (step : ℚ) (j : ℕ)
    (st : List Point) (hstep : step ≠ 0) (hj : j < x.length) :
    ∀ s : SPs, (st.foldl (serialPoint f x step j) s).tr.count x
      = s.tr.count x + (if s.origin = none
          ∧ (st.foldl (serialPoint f x step j) s).origin ≠ none then 1 else 0) := by
  induction st with
  | nil =>
    intro s
    rw [if_neg (fun hc => hc.2 hc.1)]
    simp [List.foldl_nil]
  | cons pt t ih =>
    intro s
    simp only [List.foldl_cons]
    by_cases hpt : pt.Loc = 0
    · cases horg : s.origin with
      | none =>
        have hs : serialPoint f x step j s pt
            = ⟨AddScaled s.col pt.Coeff (f x), some (f x), s.tr ++ [x]⟩ := by
          simp [serialPoint, hpt, horg]
        simp only [hs, horg]
        rw [ih ⟨AddScaled s.col pt.Coeff (f x), some (f x), s.tr ++ [x]⟩]
        dsimp only
        have hmono := serial_fold_origin_mono f x step j t
          ⟨AddScaled s.col pt.Coeff (f x), some (f x), s.tr ++ [x]⟩ (by simp)
        rw [if_neg (fun hc => Option.noConfusion hc.1), if_pos ⟨trivial, hmono⟩,
          count_append_one, if_pos rfl]
      | some o =>
        have hs : serialPoint f x step j s pt
            = ⟨AddScaled s.col pt.Coeff o, some o, s.tr⟩ := by
          simp [serialPoint, hpt, horg]
        simp only [hs, horg]
        rw [ih ⟨AddScaled s.col pt.Coeff o, some o, s.tr⟩]
    · have hs : serialPoint f x step j s pt
          = ⟨AddScaled s.col pt.Coeff (f (perturb x j (pt.Loc * step))), s.origin,
             s.tr ++ [perturb x j (pt.Loc * step)]⟩ := by
        simp [serialPoint, hpt]
      simp only [hs]
      rw [ih ⟨AddScaled s.col pt.Coeff (f (perturb x j (pt.Loc * step))),
        s.origin, s.tr ++ [perturb x j (pt.Loc * step)]⟩]
      dsimp only
      rw [count_append_one, if_neg (perturb_ne x j _ hj (mul_ne_zero hpt hstep))]
      omega

theorem colsFun_origin_mono (f : List ℚ → List ℚ) (x : List ℚ) (step : ℚ)
    (m : ℕ) (st : List Point) (org0 : Option (List ℚ)) (tr0 : List (List ℚ)) :
    ∀ k, org0 ≠ none → (colsFun f x step m st org0 tr0 k).2.1 ≠ none := by
  intro k
  induction k with
  | zero => exact fun h => h
  | succ k ih =>
    intro h
    exact serial_fold_origin_mono f x step k st _ (ih h)

theorem colsFun_count (f : List ℚ → List ℚ) (x : List ℚ) (step : ℚ) (m : ℕ)
    (st : List Point) (org0 : Option (List ℚ)) (tr0 : List (List ℚ))
    (hstep : step ≠ 0) :
    ∀ k, k ≤ x.length →
      (colsFun f x step m st org0 tr0 k).2.2.count x
        = tr0.count x + (if org0 = none
            ∧ (colsFun f x step m st org0 tr0 k).2.1 ≠ none then 1 else 0) := by
  intro k
  induction k with
  | zero =>
    intro _
    rw [if_neg (fun hc => hc.2 hc.1)]
    simp [colsFun]
  | succ k ih =>
    intro hk
    have ihk := ih (Nat.le_of_succ_le hk)
    have e2 : (colsFun f x step m st org0 tr0 (k + 1)).2.2
        = (st.foldl (serialPoint f x step k)
            ⟨List.replicate m 0, (colsFun f x step m st org0 tr0 k).2.1,
             (colsFun f x step m st org0 tr0 k).2.2⟩).tr := rfl
    have e1 : (colsFun f x step m st org0 tr0 (k + 1)).2.1
        = (st.foldl (serialPoint f x step k)
            ⟨List.replicate m 0, (colsFun f x step m st org0 tr0 k).2.1,
             (colsFun f x step m st org0 tr0 k).2.2⟩).origin := rfl
    simp only [e2, e1]
    rw [serial_fold_count f x step k st hstep (Nat.lt_of_succ_le hk)
        ⟨List.replicate m 0, (colsFun f x step m st org0 tr0 k).2.1,
         (colsFun f x step m st org0 tr0 k).2.2⟩]
    dsimp only
    rw [ihk]
    by_cases h0 : org0 = none
    · by_cases hp : (colsFun f x step m st org0 tr0 k).2.1 = none
      · rw [if_neg (fun hc => hc.2 hp)]
        by_cases hf2 : (st.foldl (serialPoint f x step k)
            ⟨List.replicate m 0, (colsFun f x step m st org0 tr0 k).2.1,
             (colsFun f x step m st org0 tr0 k).2.2⟩).origin = none
        · rw [if_neg (fun hc => hc.2 hf2), if_neg (fun hc => hc.2 hf2)]
        · rw [if_pos ⟨hp, hf2⟩, if_pos ⟨h0, hf2⟩]
      · have hm := serial_fold_origin_mono f x step k st
          ⟨List.replicate m 0, (colsFun f x step m st org0 tr0 k).2.1,
           (colsFun f x step m st org0 tr0 k).2.2⟩ hp
        rw [if_pos ⟨h0, hp⟩, if_neg (fun hc => hp hc.1), if_pos ⟨h0, hm⟩]
    · have hp := colsFun_origin_mono f x step m st org0 tr0 k h0
      rw [if_neg (fun hc => h0 hc.1), if_neg (fun hc => hp hc.1),
        if_neg (fun hc => h0 hc.1)]

theorem jacobianSerial_count (dst : Dense) (f : List ℚ → List ℚ) (x : List ℚ)
    (org : Option (List ℚ)) (fo : Formula) (step : ℚ)
    (hstep : step ≠ 0) (hn : dst.data.length ≤ x.length) :
    (jacobianSerial dst f x org fo step).2.count x ≤ 1
      ∧ (org.isSome = true →
          (jacobianSerial dst f x org fo step).2.count x = 0) := by
  rw [jacobianSerial_char]
  simp only
  rw [colsFun_count f x step dst.m fo.stencilList org [] hstep
    dst.data.length hn]
  simp only [List.count_nil]
  constructor
  · split <;> omega
  · intro hsome
    rw [if_neg (fun hc => by rw [hc.1] at hsome; simp at hsome)]

theorem jacobianSerial_shape (dst : Dense) (f : List ℚ → List ℚ) (x : List ℚ)
    (org : Option (List ℚ)) (fo : Formula) (step : ℚ)
    (hf : ∀ v, v.length = x.length → (f v).length = dst.m)
    (hovm : (org.getD (f x)).length = dst.m) :
    ((jacobianSerial dst f x org fo step).1).m = dst.m
      ∧ ((jacobianSerial dst f x org fo step).1).data.length = dst.data.length
      ∧ ∀ c ∈ ((jacobianSerial dst f x org fo step).1).data, c.length = dst.m := by
  rw [jacobianSerial_char]
  obtain ⟨-, hlen, -⟩ := colsFun_spec f x step dst.m fo.stencilList org []
    hf hovm dst.data.length
  refine ⟨rfl, ?_, ?_⟩
  · simp [Dense.scale, colsFun_cols_length]
  · intro c hc
    simp only [Dense.scale, List.mem_map] at hc
    obtain ⟨c0, hc0, hce⟩ := hc
    rw [← hce, List.length_map]
    exact hlen c0 hc0

theorem Dense_eq_of (A B : Dense) (h1 : A.m = B.m) (h2 : A.data = B.data) :
    A = B := by
  cases A
  cases B
  simp only at h1 h2
  rw [h1, h2]

theorem filter_single_cases (st : List Point)
    (hone : (st.filter (fun pt => pt.Loc == 0)).length ≤ 1) :
    st.filter (fun pt => pt.Loc == 0) = []
      ∨ ∃ pt0, st.filter (fun pt => pt.Loc == 0) = [pt0] := by
  cases hf : st.filter (fun pt => pt.Loc == 0) with
  | nil => exact Or.inl rfl
  | cons a t =>
    cases t with
    | nil => exact Or.inr ⟨a, rfl⟩
    | cons b t2 =>
      rw [hf] at hone
      simp at hone

theorem serial_eq_concurrent (dst : Dense) (f : List ℚ → List ℚ) (x : List ℚ)
    (org : Option (List ℚ)) (fo : Formula) (step : ℚ) (w : ℕ)
    (hwf : ∀ c ∈ dst.data, c.length = dst.m)
    (hf : ∀ v, v.length = x.length → (f v).length = dst.m)
    (hovm : (org.getD (f x)).length = dst.m)
    (hone : (fo.stencilList.filter (fun pt => pt.Loc == 0)).length ≤ 1) :
    (jacobianSerial dst f x org fo step).1
      = (jacobianConcurrent dst f x org fo step w).1 := by
  obtain ⟨sm, sl, scols⟩ := jacobianSerial_shape dst f x org fo step hf hovm
  obtain ⟨cm, cl, ccols⟩ := jacobianConcurrent_shape dst f x org fo step w hwf hf hovm
  have halg : ∀ i j, i < dst.m → j < dst.data.length →
      ((jacobianSerial dst f x org fo step).1).get i j
        = ((jacobianConcurrent dst f x org fo step w).1).get i j := by
    intro i j hi hj
    rw [jacobianSerial_get dst f x org fo step i j hf hovm hi hj,
      jacobianConcurrent_get dst f x org fo step w i j hwf hf hovm hi hj]
    congr 1
    rw [sum_map_filter_split (fun pt => pt.Loc == 0)
      (fun pt => pt.Coeff * (specVal f x (org.getD (f x)) step j pt).getD i 0)
      fo.stencilList]
    have hmap : (fo.stencilList.filter (fun pt => !(pt.Loc == 0))).map
          (fun pt => pt.Coeff * (specVal f x (org.getD (f x)) step j pt).getD i 0)
        = (fo.stencilList.filter (fun pt => !(pt.Loc == 0))).map
          (fun pt => pt.Coeff * (f (perturb x j (pt.Loc * step))).getD i 0) := by
      apply List.map_congr_left
      intro pt hpt
      have h0 : ¬ pt.Loc = 0 := by
        have hp := (List.mem_filter.mp hpt).2
        simpa using hp
      simp [specVal, h0]
    rcases filter_single_cases fo.stencilList hone with hnil | ⟨pt0, hone1⟩
    · rw [hnil, any_eq_false_of_filter_nil _ hnil]
      simp only [List.map_nil, List.sum_nil, Bool.false_eq_true, if_false]
      rw [hmap]
      ring
    · have hpt0 : pt0.Loc = 0 := by
        have hm0 : pt0 ∈ fo.stencilList.filter (fun pt => pt.Loc == 0) := by
          rw [hone1]
          exact List.mem_singleton_self pt0
        simpa using (List.mem_filter.mp hm0).2
      rw [hone1, any_eq_true_of_filter_single _ _ hone1, if_pos rfl,
        lastOC_of_filter_single _ _ _ hone1, hmap]
      simp only [List.map_cons, List.map_nil, List.sum_cons, List.sum_nil]
      simp [specVal, hpt0]
      ring
  apply Dense_eq_of _ _ (by rw [sm, cm])
  apply ext_getD ([] : List ℚ)
  · rw [sl, cl]
  · intro j hj
    rw [sl] at hj
    apply ext_getD (0 : ℚ)
    · rw [scols _ (getD_mem _ _ _ (by rw [sl]; exact hj)),
        ccols _ (getD_mem _ _ _ (by rw [cl]; exact hj))]
    · intro i hi
      rw [scols _ (getD_mem _ _ _ (by rw [sl]; exact hj))] at hi
      exact halg i j hi hj

theorem jacobianSerial_dst_independent (dst1 dst2 : Dense) (f : List ℚ → List ℚ)
    (x : List ℚ) (org : Option (List ℚ)) (fo : Formula) (step : ℚ)
    (h1 : dst1.m = dst2.m) (h2 : dst1.data.length = dst2.data.length) :
    jacobianSerial dst1 f x org fo step = jacobianSerial dst2 f x org fo step := by
  rw [jacobianSerial_char, jacobianSerial_char, h1, h2]

theorem jacobianConcurrent_dst_independent (dst1 dst2 : Dense)
    (f : List ℚ → List ℚ) (x : List ℚ) (org : Option (List ℚ)) (fo : Formula)
    (step : ℚ) (nw : ℕ)
    (h1 : dst1.m = dst2.m) (h2 : dst1.data.length = dst2.data.length)
    (hwf1 : ∀ c ∈ dst1.data, c.length = dst1.m)
    (hwf2 : ∀ c ∈ dst2.data, c.length = dst2.m) :
    jacobianConcurrent dst1 f x org fo step nw
      = jacobianConcurrent dst2 f x org fo step nw := by
  simp only [jacobianConcurrent, zeroAll_eq dst1 hwf1, zeroAll_eq dst2 hwf2, h1, h2]

theorem Jacobian_dst_independent (dst1 dst2 : Dense) (f : List ℚ → List ℚ)
    (x : List ℚ) (settings : Option JacobianSettings) (g : ℕ)
    (h1 : dst1.m = dst2.m) (h2 : dst1.data.length = dst2.data.length)
    (hwf1 : ∀ c ∈ dst1.data, c.length = dst1.m)
    (hwf2 : ∀ c ∈ dst2.data, c.length = dst2.m) :
    Jacobian dst1 f x settings g = Jacobian dst2 f x settings g := by
  have hser := jacobianSerial_dst_independent dst1 dst2 f x
    (settings.getD JacobianSettings.zero).OriginValue (resolvedFormula settings)
    (resolvedStep settings) h1 h2
  have hcon := jacobianConcurrent_dst_independent dst1 dst2 f x
    (settings.getD JacobianSettings.zero).OriginValue (resolvedFormula settings)
    (resolvedStep settings)
    (jacWorkers (settings.getD JacobianSettings.zero).Concurrent g
      (jacEvals x.length (resolvedFormula settings).stencilList))
    h1 h2 hwf1 hwf2
  simp only [Jacobian, h1, h2, hser, hcon]

theorem resolvedStep_ne_zero (settings : Option JacobianSettings)
    (h : (resolvedFormula settings).Step ≠ 0) : resolvedStep settings ≠ 0 := by
  unfold resolvedStep
  by_cases hs : (settings.getD JacobianSettings.zero).Step = 0
  · rw [if_pos hs]
    exact h
  · rw [if_neg hs]
    exact hs

theorem Jacobian_dispatch (dst : Dense) (f : List ℚ → List ℚ) (x : List ℚ)
    (settings : Option JacobianSettings) (g : ℕ)
    (hx : x ≠ []) (hc : dst.data.length = x.length)
    (horig : ∀ ov, (settings.getD JacobianSettings.zero).OriginValue = some ov →
        ov.length = dst.m)
    (hD : (resolvedFormula settings).Derivative = 1)
    (hS : (resolvedFormula settings).Stencil ≠ none)
    (hstep : (resolvedFormula settings).Step ≠ 0) :
    Jacobian dst f x settings g
      = (if jacWorkers (settings.getD JacobianSettings.zero).Concurrent g
            (jacEvals x.length (resolvedFormula settings).stencilList) = 1
         then ((.ok (jacobianSerial dst f x
                (settings.getD JacobianSettings.zero).OriginValue
                (resolvedFormula settings) (resolvedStep settings)).1,
              (jacobianSerial dst f x
                (settings.getD JacobianSettings.zero).OriginValue
                (resolvedFormula settings) (resolvedStep settings)).2) :
              Except String Dense × List (List ℚ))
         else (.ok (jacobianConcurrent dst f x
                (settings.getD JacobianSettings.zero).OriginValue
                (resolvedFormula settings) (resolvedStep settings)
                (jacWorkers (settings.getD JacobianSettings.zero).Concurrent g
                  (jacEvals x.length (resolvedFormula settings).stencilList))).1,
              (jacobianConcurrent dst f x
                (settings.getD JacobianSettings.zero).OriginValue
                (resolvedFormula settings) (resolvedStep settings)
                (jacWorkers (settings.getD JacobianSettings.zero).Concurrent g
                  (jacEvals x.length (resolvedFormula settings).stencilList))).2)) := by
  have hov : ¬((settings.getD JacobianSettings.zero).OriginValue.isSome
      ∧ ((settings.getD JacobianSettings.zero).OriginValue.getD []).length ≠ dst.m) := by
    cases ho : (settings.getD JacobianSettings.zero).OriginValue with
    | none => rintro ⟨h1, -⟩; simp at h1
    | some ov => exact fun hb => hb.2 (horig ov ho)
  have hbad : ¬((resolvedFormula settings).Derivative = 0
      ∨ (resolvedFormula settings).Stencil = none
      ∨ (resolvedFormula settings).Step = 0) := by
    rintro (h | h | h)
    · rw [hD] at h
      simp at h
    · exact hS h
    · exact hstep h
  simp only [Jacobian]
  rw [if_neg (fun h => hx (List.length_eq_zero.mp h)),
    if_neg (fun h => h hc), if_neg hov, if_neg hbad, if_neg (fun h => h hD)]

theorem idCols_length (n : ℕ) : (idCols n).length = n := by
  simp [idCols]

theorem idCols_col_length (n j : ℕ) (hj : j < n) :
    ((idCols n).getD j []).length = n := by
  unfold idCols
  rw [getD_lt _ _ _ (by simpa using hj)]
  simp

theorem idCols_getD (n i j : ℕ) (hi : i < n) (hj : j < n) :
    ((idCols n).getD j []).getD i 0 = if i = j then 1 else 0 := by
  have h1 : (idCols n).getD j []
      = (List.range n).map (fun i2 => if i2 = j then (1 : ℚ) else 0) := by
    unfold idCols
    rw [getD_lt _ _ _ (by simpa using hj)]
    simp
  rw [h1, getD_lt _ _ _ (by simpa using hi)]
  simp

/-! ### Claim theorems -/

/-- C1: for every valid input (non-empty `x` of length n, `dst` with n
columns and m rows, formula of derivative order 1 with non-empty stencil and
non-zero resolved step), after the serial evaluation path returns, entry
(i, j) of `dst` equals `1/step` times the sum over all stencil points `pt`
of `pt.Coeff` times the i-th component of `f` evaluated at `x` perturbed
only in coordinate `j` by `pt.Loc * step`, where the origin (offset-0) term
uses the supplied precomputed origin value when present and `f` evaluated at
the unperturbed `x` otherwise. -/
theorem C1_serial_entry (dst : Dense) (f : List ℚ → List ℚ) (x : List ℚ)
    (origin : Option (List ℚ)) (formula : Formula) (step : ℚ) (i j : ℕ)
    (hx : x ≠ []) (hn : dst.data.length = x.length)
    (hf : ∀ v, v.length = x.length → (f v).length = dst.m)
    (ho : ∀ s, origin = some s → s.length = dst.m)
    (hD : formula.Derivative = 1) (hst : formula.stencilList ≠ [])
    (hstep : step ≠ 0) (hi : i < dst.m) (hj : j < dst.data.length) :
    ((jacobianSerial dst f x origin formula step).1).get i j
      = (1 / step) * (formula.stencilList.map (fun pt =>
          pt.Coeff * ((if pt.Loc = 0
            then origin.getD (f x)
            else f (perturb x j (pt.Loc * step))).getD i 0))).sum := by
  have hovm : (origin.getD (f x)).length = dst.m := by
    cases horg : origin with
    | none => simpa using hf x rfl
    | some s => simpa using ho s horg
  simpa only [specVal] using
    jacobianSerial_get dst f x origin formula step i j hf hovm hi hj

theorem C1_serial_entry_witness :
    ((jacobianSerial ⟨1, [[7]]⟩ (fun v => [v.getD 0 0 * v.getD 0 0]) [3] none
        Forward 1).1).get 0 0
      = (1 / 1) * (Forward.stencilList.map (fun pt =>
          pt.Coeff * ((if pt.Loc = 0
            then (none : Option (List ℚ)).getD
              ((fun v => [v.getD 0 0 * v.getD 0 0]) [3])
            else (fun v => [v.getD 0 0 * v.getD 0 0])
              (perturb [3] 0 (pt.Loc * 1))).getD 0 0))).sum :=
  C1_serial_entry ⟨1, [[7]]⟩ (fun v => [v.getD 0 0 * v.getD 0 0]) [3] none
    Forward 1 0 0 (by decide) (by decide) (fun v _ => rfl)
    (fun s h => Option.noConfusion h) (by decide) (by decide) (by decide)
    (by decide) (by decide)

/-- C2: for every valid input (same `f`, `x`, formula, step, origin value,
and destination shape, with the stencil containing at most one origin point
as the data-model invariant requires), the serial evaluation path and the
concurrent evaluation path produce exactly equal destination matrices over
exact arithmetic — concurrency changes scheduling only, not the computed
result. -/
theorem C2_serial_eq_concurrent (dst : Dense) (f : List ℚ → List ℚ)
    (x : List ℚ) (origin : Option (List ℚ)) (formula : Formula) (step : ℚ)
    (nWorkers : ℕ)
    (hwf : ∀ c ∈ dst.data, c.length = dst.m)
    (hf : ∀ v, v.length = x.length → (f v).length = dst.m)
    (ho : ∀ s, origin = some s → s.length = dst.m)
    (hone : (formula.stencilList.filter (fun pt => pt.Loc == 0)).length ≤ 1) :
    (jacobianSerial dst f x origin formula step).1
      = (jacobianConcurrent dst f x origin formula step nWorkers).1 := by
  have hovm : (origin.getD (f x)).length = dst.m := by
    cases horg : origin with
    | none => simpa using hf x rfl
    | some s => simpa using ho s horg
  exact serial_eq_concurrent dst f x origin formula step nWorkers hwf hf hovm hone

theorem C2_serial_eq_concurrent_witness :
    (jacobianSerial ⟨2, [[9, 9], [9, 9]]⟩ (fun v => v) [3, 5] none Forward
        (1 / 2)).1
      = (jacobianConcurrent ⟨2, [[9, 9], [9, 9]]⟩ (fun v => v) [3, 5] none
          Forward (1 / 2) 4).1 :=
  C2_serial_eq_concurrent ⟨2, [[9, 9], [9, 9]]⟩ (fun v => v) [3, 5] none
    Forward (1 / 2) 4 (by decide) (fun v hv => hv)
    (fun s h => Option.noConfusion h) (by decide)

/-- C3: `Jacobian` panics (modelled as returning `.error` with an empty
evaluation trace, i.e. before any evaluation of `f` and before any write to
`dst`) whenever a precondition is violated: empty `x`, destination column
count different from `len(x)`, supplied origin value length different from
the row count, resolved formula with zero derivative order or zero step, or
resolved derivative order other than 1.  In particular a column-count
mismatch aborts with zero calls to `f` (second conjunct, trace `[]`). -/
theorem C3_precondition_panics (dst : Dense) (f : List ℚ → List ℚ)
    (x : List ℚ) (settings : Option JacobianSettings) (g : ℕ) :
    (x = [] → Jacobian dst f x settings g
        = (.error "jacobian: x has zero length", []))
    ∧ (x ≠ [] → dst.data.length ≠ x.length →
        Jacobian dst f x settings g
          = (.error "jacobian: mismatched matrix size", []))
    ∧ (x ≠ [] → dst.data.length = x.length →
        ∀ ov, (settings.getD JacobianSettings.zero).OriginValue = some ov →
          ov.length ≠ dst.m →
          Jacobian dst f x settings g
            = (.error "jacobian: mismatched OriginValue slice length", []))
    ∧ (x ≠ [] → dst.data.length = x.length →
        (∀ ov, (settings.getD JacobianSettings.zero).OriginValue = some ov →
          ov.length = dst.m) →
        ((resolvedFormula settings).Derivative = 0
          ∨ (resolvedFormula settings).Step = 0) →
        Jacobian dst f x settings g = (.error "jacobian: bad formula", []))
    ∧ (x ≠ [] → dst.data.length = x.length →
        (∀ ov, (settings.getD JacobianSettings.zero).OriginValue = some ov →
          ov.length = dst.m) →
        (resolvedFormula settings).Derivative ≠ 0 →
        (resolvedFormula settings).Stencil ≠ none →
        (resolvedFormula settings).Step ≠ 0 →
        (resolvedFormula settings).Derivative ≠ 1 →
        Jacobian dst f x settings g
          = (.error "jacobian: invalid derivative order", [])) := by
  refine ⟨?_, ?_, ?_, ?_, ?_⟩
  · intro hx
    subst hx
    rfl
  · intro hx hne
    simp only [Jacobian]
    rw [if_neg (fun h => hx (List.length_eq_zero.mp h)), if_pos hne]
  · intro hx hc ov hov hlen
    simp only [Jacobian]
    rw [if_neg (fun h => hx (List.length_eq_zero.mp h)),
      if_neg (fun h => h hc),
      if_pos ⟨by rw [hov]; rfl, by rw [hov]; exact hlen⟩]
  · intro hx hc horig hbad
    have hov : ¬((settings.getD JacobianSettings.zero).OriginValue.isSome
        ∧ ((settings.getD JacobianSettings.zero).OriginValue.getD []).length
            ≠ dst.m) := by
      cases ho2 : (settings.getD JacobianSettings.zero).OriginValue with
      | none => rintro ⟨h1, -⟩; simp at h1
      | some ov => exact fun hb => hb.2 (horig ov ho2)
    simp only [Jacobian]
    rw [if_neg (fun h => hx (List.length_eq_zero.mp h)),
      if_neg (fun h => h hc), if_neg hov,
      if_pos (hbad.elim Or.inl (fun h => Or.inr (Or.inr h)))]
  · intro hx hc horig hD0 hS hstep hD1
    have hov : ¬((settings.getD JacobianSettings.zero).OriginValue.isSome
        ∧ ((settings.getD JacobianSettings.zero).OriginValue.getD []).length
            ≠ dst.m) := by
      cases ho2 : (settings.getD JacobianSettings.zero).OriginValue with
      | none => rintro ⟨h1, -⟩; simp at h1
      | some ov => exact fun hb => hb.2 (horig ov ho2)
    simp only [Jacobian]
    rw [if_neg (fun h => hx (List.length_eq_zero.mp h)),
      if_neg (fun h => h hc), if_neg hov,
      if_neg (fun hb => hb.elim hD0 (fun hb2 => hb2.elim hS hstep)),
      if_pos hD1]

theorem C3_precondition_panics_witness :
    (Jacobian ⟨1, [[5]]⟩ (fun v => v) [] none 1
        = (.error "jacobian: x has zero length", []))
    ∧ (Jacobian ⟨1, [[5], [6]]⟩ (fun v => v) [1] none 1
        = (.error "jacobian: mismatched matrix size", []))
    ∧ (Jacobian ⟨1, [[5]]⟩ (fun v => v) [1]
        (some ⟨Forward, some [1, 2], 0, false⟩) 1
        = (.error "jacobian: mismatched OriginValue slice length", []))
    ∧ (Jacobian ⟨1, [[5]]⟩ (fun v => v) [1]
        (some ⟨⟨some [⟨1, 1⟩], 1, 0⟩, none, 0, false⟩) 1
        = (.error "jacobian: bad formula", []))
    ∧ (Jacobian ⟨1, [[5]]⟩ (fun v => v) [1]
        (some ⟨⟨some [⟨1, 1⟩], 2, 1⟩, none, 0, false⟩) 1
        = (.error "jacobian: invalid derivative order", [])) :=
  ⟨(C3_precondition_panics ⟨1, [[5]]⟩ (fun v => v) [] none 1).1 rfl,
   (C3_precondition_panics ⟨1, [[5], [6]]⟩ (fun v => v) [1] none 1).2.1
     (by decide) (by decide),
   (C3_precondition_panics ⟨1, [[5]]⟩ (fun v => v) [1]
       (some ⟨Forward, some [1, 2], 0, false⟩) 1).2.2.1
     (by decide) (by decide) [1, 2] rfl (by decide),
   (C3_precondition_panics ⟨1, [[5]]⟩ (fun v => v) [1]
       (some ⟨⟨some [⟨1, 1⟩], 1, 0⟩, none, 0, false⟩) 1).2.2.2.1
     (by decide) (by decide) (fun ov h => Option.noConfusion h)
     (Or.inr (by decide)),
   (C3_precondition_panics ⟨1, [[5]]⟩ (fun v => v) [1]
       (some ⟨⟨some [⟨1, 1⟩], 2, 1⟩, none, 0, false⟩) 1).2.2.2.2
     (by decide) (by decide) (fun ov h => Option.noConfusion h)
     (by decide) (by decide) (by decide) (by decide)⟩

/-- C4 counterexample: the claim "an empty stencil always panics" is false
on the code.  The validation only rejects a *nil* stencil slice; a non-nil
stencil with zero evaluation points passes `formula.Stencil == nil`,
`Derivative == 1` and `Step != 0`, and the call returns normally with an
all-zero matrix and zero evaluations of `f` (empty trace). -/
theorem C4_empty_stencil_no_panic :
    Jacobian ⟨1, [[5]]⟩ (fun v => v) [1]
      (some ⟨⟨some [], 1, 1⟩, none, 0, false⟩) 1
      = (.ok ⟨1, [[0]]⟩, []) := by with_unfolding_all decide

/-- C4 amended: Jacobian panics with "bad formula" exactly when the
resolved formula's stencil slice is nil (unset); a non-nil empty stencil
is not rejected. -/
theorem C4_nil_stencil_panics (dst : Dense) (f : List ℚ → List ℚ)
    (x : List ℚ) (settings : Option JacobianSettings) (g : ℕ)
    (hx : x ≠ []) (hc : dst.data.length = x.length)
    (horig : ∀ ov, (settings.getD JacobianSettings.zero).OriginValue = some ov →
        ov.length = dst.m)
    (hnil : (resolvedFormula settings).Stencil = none) :
    Jacobian dst f x settings g = (.error "jacobian: bad formula", []) := by
  have hov : ¬((settings.getD JacobianSettings.zero).OriginValue.isSome
      ∧ ((settings.getD JacobianSettings.zero).OriginValue.getD []).length
          ≠ dst.m) := by
    cases ho2 : (settings.getD JacobianSettings.zero).OriginValue with
    | none => rintro ⟨h1, -⟩; simp at h1
    | some ov => exact fun hb => hb.2 (horig ov ho2)
  simp only [Jacobian]
  rw [if_neg (fun h => hx (List.length_eq_zero.mp h)),
    if_neg (fun h => h hc), if_neg hov, if_pos (Or.inr (Or.inl hnil))]

theorem C4_nil_stencil_panics_witness :
    Jacobian ⟨1, [[5]]⟩ (fun v => v) [1]
      (some ⟨⟨none, 1, 1⟩, none, 0, false⟩) 1
      = (.error "jacobian: bad formula", []) :=
  C4_nil_stencil_panics ⟨1, [[5]]⟩ (fun v => v) [1]
    (some ⟨⟨none, 1, 1⟩, none, 0, false⟩) 1 (by decide) (by decide)
    (fun ov h => Option.noConfusion h) (by decide)

/-- C5: the orchestrator computes `evals = n * |stencil|` minus `n - 1`
when the stencil contains an origin point; the worker count is 1 when
concurrency is not requested and otherwise `min gomaxprocs evals` (so it
never exceeds `evals`; for evals = 3 and parallelism 8 it is 3); and on a
validated call `Jacobian` dispatches to the serial evaluator exactly when
the worker count is 1 and to the concurrent evaluator otherwise. -/
theorem C5_orchestrator :
    (∀ (n : ℕ) (st : List Point), jacEvals n st
        = if ∃ pt ∈ st, pt.Loc = 0 then n * st.length - (n - 1)
          else n * st.length)
    ∧ (∀ g e : ℕ, jacWorkers false g e = 1)
    ∧ (∀ g e : ℕ, jacWorkers true g e = min g e)
    ∧ (∀ g e : ℕ, jacWorkers true g e ≤ e)
    ∧ jacWorkers true 8 3 = 3
    ∧ (∀ (dst : Dense) (f : List ℚ → List ℚ) (x : List ℚ)
        (settings : Option JacobianSettings) (g : ℕ),
        x ≠ [] → dst.data.length = x.length →
        (∀ ov, (settings.getD JacobianSettings.zero).OriginValue = some ov →
          ov.length = dst.m) →
        (resolvedFormula settings).Derivative = 1 →
        (resolvedFormula settings).Stencil ≠ none →
        (resolvedFormula settings).Step ≠ 0 →
        Jacobian dst f x settings g
          = (if jacWorkers (settings.getD JacobianSettings.zero).Concurrent g
                (jacEvals x.length (resolvedFormula settings).stencilList) = 1
             then ((.ok (jacobianSerial dst f x
                    (settings.getD JacobianSettings.zero).OriginValue
                    (resolvedFormula settings) (resolvedStep settings)).1,
                  (jacobianSerial dst f x
                    (settings.getD JacobianSettings.zero).OriginValue
                    (resolvedFormula settings) (resolvedStep settings)).2) :
                  Except String Dense × List (List ℚ))
             else (.ok (jacobianConcurrent dst f x
                    (settings.getD JacobianSettings.zero).OriginValue
                    (resolvedFormula settings) (resolvedStep settings)
                    (jacWorkers (settings.getD JacobianSettings.zero).Concurrent
                      g (jacEvals x.length
                        (resolvedFormula settings).stencilList))).1,
                  (jacobianConcurrent dst f x
                    (settings.getD JacobianSettings.zero).OriginValue
                    (resolvedFormula settings) (resolvedStep settings)
                    (jacWorkers (settings.getD JacobianSettings.zero).Concurrent
                      g (jacEvals x.length
                        (resolvedFormula settings).stencilList))).2))) := by
  refine ⟨?_, fun g e => rfl, fun g e => rfl, ?_, rfl, ?_⟩
  · intro n st
    simp only [jacEvals]
    by_cases h : st.any (fun pt => pt.Loc == 0) = true
    · obtain ⟨pt, hmem, hbeq⟩ := List.any_eq_true.mp h
      rw [if_pos h, if_pos ⟨pt, hmem, by simpa using hbeq⟩]
    · rw [if_neg h, if_neg ?_]
      rintro ⟨pt, hmem, hl⟩
      exact h (List.any_eq_true.mpr ⟨pt, hmem, by simpa using hl⟩)
  · intro g e
    rw [show jacWorkers true g e = min g e from rfl]
    exact min_le_right g e
  · intro dst f x settings g hx hc horig hD hS hstep
    exact Jacobian_dispatch dst f x settings g hx hc horig hD hS hstep

theorem C5_orchestrator_witness :
    jacWorkers true 8 3 = 3
    ∧ Jacobian ⟨1, [[5]]⟩ (fun v => v) [2] (some ⟨Forward, none, 1, false⟩) 1
        = (.ok (jacobianSerial ⟨1, [[5]]⟩ (fun v => v) [2] none Forward 1).1,
           (jacobianSerial ⟨1, [[5]]⟩ (fun v => v) [2] none Forward 1).2) :=
  ⟨C5_orchestrator.2.2.2.2.1,
   (C5_orchestrator.2.2.2.2.2 ⟨1, [[5]]⟩ (fun v => v) [2]
       (some ⟨Forward, none, 1, false⟩) 1 (by decide) (by decide)
       (fun ov h => Option.noConfusion h) (by decide) (by decide)
       (by with_unfolding_all decide)).trans (by with_unfolding_all decide)⟩

/-- C6: for every x and every non-zero step, applying Jacobian with the
default Forward formula (stencil exactly {(offset 0, weight -1),
(offset 1, weight +1)}) to the identity function f(v) = v with a square
m = n destination yields exactly the n-by-n identity matrix over exact
arithmetic. -/
theorem C6_forward_identity (x : List ℚ) (step : ℚ) (dst : Dense)
    (hstep : step ≠ 0) (hx : x ≠ [])
    (hm : dst.m = x.length) (hn : dst.data.length = x.length)
    (hwf : ∀ c ∈ dst.data, c.length = dst.m) :
    (Jacobian dst (fun v => v) x (some ⟨Forward, none, step, false⟩) 1).1
      = .ok ⟨x.length, idCols x.length⟩ := by
  have hres : resolvedFormula (some ⟨Forward, none, step, false⟩) = Forward := rfl
  have hrs : resolvedStep (some ⟨Forward, none, step, false⟩) = step := by
    simp only [resolvedStep, Option.getD_some]
    rw [if_neg hstep]
  have hstepF : (resolvedFormula (some ⟨Forward, none, step, false⟩)).Step ≠ 0 := by
    rw [hres]
    decide
  rw [Jacobian_dispatch dst (fun v => v) x (some ⟨Forward, none, step, false⟩) 1
    hx hn (fun ov h => Option.noConfusion h) rfl
    (fun h => Option.noConfusion (hres ▸ h)) hstepF]
  rw [if_pos (show jacWorkers ((some (⟨Forward, none, step, false⟩ :
      JacobianSettings)).getD JacobianSettings.zero).Concurrent 1
      (jacEvals x.length (resolvedFormula (some ⟨Forward, none, step,
        false⟩)).stencilList) = 1 from rfl)]
  have hf6 : ∀ v : List ℚ, v.length = x.length → ((fun v => v) v).length = dst.m :=
    fun v hv => by rw [hm]; exact hv
  have hovm6 : ((none : Option (List ℚ)).getD ((fun v => v) x)).length = dst.m := by
    rw [hm]
    rfl
  have hser : (jacobianSerial dst (fun v => v) x none Forward step).1
      = ⟨x.length, idCols x.length⟩ := by
    obtain ⟨sm, sl, scols⟩ := jacobianSerial_shape dst (fun v => v) x none
      Forward step hf6 hovm6
    apply Dense_eq_of
    · rw [sm, hm]
    · apply ext_getD ([] : List ℚ)
      · rw [sl, hn, idCols_length]
      · intro j hj
        rw [sl, hn] at hj
        apply ext_getD (0 : ℚ)
        · rw [scols _ (getD_mem _ _ _ (by rw [sl, hn]; exact hj)), hm,
            idCols_col_length x.length j hj]
        · intro i hi
          rw [scols _ (getD_mem _ _ _ (by rw [sl, hn]; exact hj)), hm] at hi
          rw [idCols_getD x.length i j hi hj]
          have hget := jacobianSerial_get dst (fun v => v) x none Forward step
            i j hf6 hovm6 (by rw [hm]; exact hi) (by rw [hn]; exact hj)
          rw [show (((jacobianSerial dst (fun v => v) x none Forward
              step).1).data.getD j []).getD i 0
              = ((jacobianSerial dst (fun v => v) x none Forward
                  step).1).get i j from rfl, hget]
          have e1 : specVal (fun v => v) x
              ((none : Option (List ℚ)).getD ((fun v => v) x)) step j ⟨0, -1⟩
              = x := by
            simp [specVal]
          have e2 : specVal (fun v => v) x
              ((none : Option (List ℚ)).getD ((fun v => v) x)) step j ⟨1, 1⟩
              = perturb x j (1 * step) := by
            simp [specVal]
          rw [show Forward.stencilList = [⟨0, -1⟩, ⟨1, 1⟩] from rfl,
            List.map_cons, List.map_cons, List.map_nil, e1, e2,
            List.sum_cons, List.sum_cons, List.sum_nil]
          simp only [one_mul]
          by_cases hij : i = j
          · subst hij
            rw [perturb_getD_self x i step hi, if_pos rfl]
            field_simp
          · rw [perturb_getD_ne x j i step (fun he => hij he.symm), if_neg hij]
            ring
  rw [hrs]
  exact congrArg (fun d => (Except.ok d : Except String Dense)) hser

theorem C6_forward_identity_witness :
    (Jacobian ⟨2, [[9, 9], [9, 9]]⟩ (fun v => v) [3, 5]
        (some ⟨Forward, none, 2, false⟩) 1).1
      = .ok ⟨([3, 5] : List ℚ).length, idCols ([3, 5] : List ℚ).length⟩ :=
  C6_forward_identity [3, 5] 2 ⟨2, [[9, 9], [9, 9]]⟩ (by decide) (by decide)
    (by decide) (by decide) (by decide)

/-- C8: calling Jacobian with nil settings behaves identically (same
outcome including panics, same evaluation trace of `f`, same final matrix)
to calling it with the explicitly zero-valued default settings (the
zero `Formula`, which resolves to the built-in Forward formula and its own
default step, no precomputed origin value, concurrency off). -/
theorem C8_nil_settings_default (dst : Dense) (f : List ℚ → List ℚ)
    (x : List ℚ) (g : ℕ) :
    Jacobian dst f x none g = Jacobian dst f x (some JacobianSettings.zero) g :=
  rfl

/-- C7: for every call, when the settings carry a precomputed origin value,
`f` is never evaluated at the unperturbed point `x` (the trace contains no
occurrence of `x`); and in every call `f` is evaluated at the unperturbed
`x` at most once (the serial path caches the origin across columns, the
concurrent path computes it in a single dedicated task). -/
theorem C7_origin_evaluations (dst : Dense) (f : List ℚ → List ℚ)
    (x : List ℚ) (settings : Option JacobianSettings) (g : ℕ) :
    (((settings.getD JacobianSettings.zero).OriginValue).isSome = true →
        ((Jacobian dst f x settings g).2).count x = 0)
      ∧ ((Jacobian dst f x settings g).2).count x ≤ 1 := by
  simp only [Jacobian]
  by_cases h1 : x.length = 0
  · rw [if_pos h1]
    exact ⟨fun _ => rfl, Nat.zero_le 1⟩
  · rw [if_neg h1]
    by_cases h2 : dst.data.length ≠ x.length
    · rw [if_pos h2]
      exact ⟨fun _ => rfl, Nat.zero_le 1⟩
    · rw [if_neg h2]
      by_cases h3 : (settings.getD JacobianSettings.zero).OriginValue.isSome
          ∧ ((settings.getD JacobianSettings.zero).OriginValue.getD []).length
              ≠ dst.m
      · rw [if_pos h3]
        exact ⟨fun _ => rfl, Nat.zero_le 1⟩
      · rw [if_neg h3]
        by_cases h4 : (resolvedFormula settings).Derivative = 0
            ∨ (resolvedFormula settings).Stencil = none
            ∨ (resolvedFormula settings).Step = 0
        · rw [if_pos h4]
          exact ⟨fun _ => rfl, Nat.zero_le 1⟩
        · rw [if_neg h4]
          by_cases h5 : (resolvedFormula settings).Derivative ≠ 1
          · rw [if_pos h5]
            exact ⟨fun _ => rfl, Nat.zero_le 1⟩
          · rw [if_neg h5]
            have hstep : resolvedStep settings ≠ 0 :=
              resolvedStep_ne_zero settings
                (fun h => h4 (Or.inr (Or.inr h)))
            have hlen : dst.data.length ≤ x.length :=
              le_of_eq (not_ne_iff.mp h2)
            by_cases h6 : jacWorkers
                (settings.getD JacobianSettings.zero).Concurrent g
                (jacEvals x.length (resolvedFormula settings).stencilList) = 1
            · rw [if_pos h6]
              obtain ⟨hle, hzero⟩ := jacobianSerial_count dst f x
                (settings.getD JacobianSettings.zero).OriginValue
                (resolvedFormula settings) (resolvedStep settings) hstep hlen
              exact ⟨fun hs => hzero hs, hle⟩
            · rw [if_neg h6]
              obtain ⟨hle, hzero⟩ := jacobianConcurrent_count dst f x
                (settings.getD JacobianSettings.zero).OriginValue
                (resolvedFormula settings) (resolvedStep settings)
                (jacWorkers (settings.getD JacobianSettings.zero).Concurrent g
                  (jacEvals x.length (resolvedFormula settings).stencilList))
                hstep hlen
              exact ⟨fun hs => hzero hs, hle⟩

theorem C7_origin_evaluations_witness :
    ((((some (⟨Forward, some [30, 50], 1 / 2, false⟩ : JacobianSettings)).getD
        JacobianSettings.zero).OriginValue).isSome = true)
    ∧ ((Jacobian ⟨2, [[9, 9], [9, 9]]⟩ (fun v => v) [3, 5]
        (some ⟨Forward, some [30, 50], 1 / 2, false⟩) 1).2).count [3, 5] = 0 :=
  ⟨by decide,
   (C7_origin_evaluations ⟨2, [[9, 9], [9, 9]]⟩ (fun v => v) [3, 5]
      (some ⟨Forward, some [30, 50], 1 / 2, false⟩) 1).1 (by decide)⟩

/-- C10: the final contents of `dst` are independent of its initial
contents: two calls identical except for the values stored in the (same
shaped, well-formed) destination produce the same outcome, evaluation
trace, and final matrix — the serial path overwrites each column with
`SetCol` before scaling, the concurrent path zeroes every entry first. -/
theorem C10_dst_contents_irrelevant (dst1 dst2 : Dense)
    (f : List ℚ → List ℚ) (x : List ℚ) (settings : Option JacobianSettings)
    (g : ℕ)
    (h1 : dst1.m = dst2.m) (h2 : dst1.data.length = dst2.data.length)
    (hwf1 : ∀ c ∈ dst1.data, c.length = dst1.m)
    (hwf2 : ∀ c ∈ dst2.data, c.length = dst2.m) :
    Jacobian dst1 f x settings g = Jacobian dst2 f x settings g :=
  Jacobian_dst_independent dst1 dst2 f x settings g h1 h2 hwf1 hwf2

theorem C10_dst_contents_irrelevant_witness :
    Jacobian ⟨1, [[5]]⟩ (fun v => v) [2] none 1
      = Jacobian ⟨1, [[7]]⟩ (fun v => v) [2] none 1 :=
  C10_dst_contents_irrelevant ⟨1, [[5]]⟩ ⟨1, [[7]]⟩ (fun v => v) [2] none 1
    (by decide) (by decide) (by decide) (by decide)

end Fd
